import Mathlib

/- Verification development for VPR's minimum-channel-width search
   (`place_and_route.c`): the binary-search controller and convergence
   verifier of `binary_search_place_and_route`, the caller contract of
   `place_and_route`, and the channel-width distribution calculator
   `init_chan` / `comp_width`.

   Embedding conventions:
   * C `int` values become `ℤ`; the sentinel for an unknown bound is `-1`,
     exactly as in the source.
   * C `float` quantities become `ℚ`.  Conversions `int -> float` and the
     divide/multiply by the default `scale_factor = 2` are exact at the
     magnitudes the guarded search manipulates and are embedded as exact
     integer operations; the hint scale factor `1.1f` is genuinely inexact,
     so it is embedded with true single-precision rounding (`roundFloat`).
   * `vpr_throw` becomes `Except.error` over the inductive `VprErr`
     (one constructor per throw site in the embedded code).
   * `try_route` is an opaque, stochastic oracle: an arbitrary stream
     `Nat → Bool` of outcomes indexed by the call number, as each call can
     answer differently even at the same width. -/

/-! ### C float arithmetic helpers -/

/-- Truncation toward zero: the C cast `(int)` applied to a float value. -/
def ratTrunc (q : ℚ) : ℤ := if q < 0 then -⌊-q⌋ else ⌊q⌋

/-- Round to the nearest integer, ties to even (the rounding IEEE-754
    applies to a scaled significand). -/
def roundHalfEven (x : ℚ) : ℤ :=
  if x - ⌊x⌋ < 1/2 then ⌊x⌋
  else if 1/2 < x - ⌊x⌋ then ⌊x⌋ + 1
  else if ⌊x⌋ % 2 = 0 then ⌊x⌋ else ⌊x⌋ + 1

/-- Round a positive rational to the nearest IEEE-754 single-precision value:
    24-bit significand, round to nearest, ties to even.  The exponent range is
    unrestricted, which is exact for the magnitudes the search manipulates
    (no overflow or denormals). -/
def roundFloatPos (q : ℚ) : ℚ :=
  (roundHalfEven (q * 2 ^ (23 - Int.log 2 q)) : ℚ) * 2 ^ (Int.log 2 q - 23)

/-- Round a rational to the nearest single-precision float value. -/
def roundFloat (q : ℚ) : ℚ :=
  if q = 0 then 0 else if q < 0 then -roundFloatPos (-q) else roundFloatPos q

/-- The single-precision value of the C literal `1.1` assigned to
    `scale_factor`: significand 9227469, i.e. `1.1f = 9227469 / 2^23`. -/
def c11 : ℚ := 9227469 / 8388608

/-- `(int)(a / scale_factor)` for an `int` expression `a` (lines 401, 403, 416
    of the search loop).  With the default `scale_factor = 2` this is C
    truncating division (`Int.tdiv`); with the hint factor `1.1f` the
    quotient is rounded to single precision before the cast truncates it. -/
def divScale (a : ℤ) (hint : Bool) : ℤ :=
  if hint then ratTrunc (roundFloat ((a : ℚ) / c11)) else Int.tdiv a 2

/-- `(int)(a * scale_factor)` (line 427): multiplication by `2` is exact;
    multiplication by `1.1f` rounds to single precision before the cast. -/
def mulScale (a : ℤ) (hint : Bool) : ℤ :=
  if hint then ratTrunc (roundFloat ((a : ℚ) * c11)) else 2 * a

/-- Line 431: `current = current + current % udsd_multiplier`
    (C `%` truncates toward zero, i.e. `Int.tmod`). -/
def parityAdjust (c m : ℤ) : ℤ := c + Int.tmod c m

/-- `udsd_multiplier` (lines 272-275): 1 for bidirectional routing,
    2 for unidirectional routing. -/
def udsd_multiplier (uni : Bool) : ℤ := if uni then 2 else 1

/-! ### Channel-width distribution data model (`physical_types.h`) -/

/-- `enum e_stat`.  `other v` stands for an out-of-range enum value, which the
    `switch` of `comp_width` sends to its fatal `default` branch. -/
inductive ChanType where
  | uniform
  | gaussian
  | pulse
  | delta
  | other (v : ℤ)
deriving DecidableEq, Repr

/-- `t_chan`: one axis profile of the channel-width distribution. -/
structure t_chan where
  type : ChanType
  peak : ℚ
  width : ℚ
  xpeak : ℚ
  dc : ℚ
deriving DecidableEq, Repr

/-- `t_chan_width_dist`: the two axis profiles plus the relative I/O width. -/
structure t_chan_width_dist where
  chan_width_io : ℚ
  chan_x_dist : t_chan
  chan_y_dist : t_chan
deriving DecidableEq, Repr

/-- The `vpr_throw` sites of the embedded code, one constructor each:
    odd channel width in a unidirectional architecture (line 300),
    `Fs` not a multiple of three in bidirectional mode (line 306),
    unconstrained search above width 1000 (line 335),
    fixed-width search above four times the requested width (line 329),
    the `Wneed = f(Fs)` sub-search exceeding its cap (line 423),
    and an unknown channel profile kind (line 679, in `comp_width`). -/
inductive VprErr where
  | oddChanWidth
  | fsNotMultipleOf3
  | over1000
  | over4W
  | fsSearchTooLarge
  | unknownChanType (v : ℤ)
deriving DecidableEq, Repr

/-- `comp_width` (lines 637-686): relative channel density at position `x`.
    `expQ` stands for the C library `exp`, kept abstract. -/
def comp_width (expQ : ℚ → ℚ) (chan : t_chan) (x separation : ℚ) :
    Except VprErr ℚ :=
  match chan.type with
  | .uniform => .ok chan.peak
  | .gaussian =>
      let val := (x - chan.xpeak) * (x - chan.xpeak) /
        (2 * chan.width * chan.width)
      .ok (chan.peak * expQ (-val) + chan.dc)
  | .pulse =>
      let val := |x - chan.xpeak|
      .ok ((if chan.width / 2 < val then 0 else chan.peak) + chan.dc)
  | .delta =>
      let val := x - chan.xpeak
      .ok ((if -separation / 2 < val ∧ val ≤ separation / 2
            then chan.peak else 0) + chan.dc)
  | .other v => .error (.unknownChanType v)

/-! ### Arithmetic facts about the bound-update step -/

theorem parityAdjust_one (c : ℤ) : parityAdjust c 1 = c := by
  simp [parityAdjust, Int.tmod_one]

theorem tmod_two_eq_emod {c : ℤ} (hc : 0 ≤ c) : Int.tmod c 2 = c % 2 :=
  Int.tmod_eq_emod hc (by norm_num)

theorem parityAdjust_two_even {c : ℤ} (hc : 0 ≤ c) :
    Int.tmod (parityAdjust c 2) 2 = 0 := by
  have h1 : Int.tmod c 2 = c % 2 := tmod_two_eq_emod hc
  have h2 : 0 ≤ parityAdjust c 2 := by
    unfold parityAdjust; rw [h1]; omega
  have h3 : Int.tmod (parityAdjust c 2) 2 = parityAdjust c 2 % 2 :=
    tmod_two_eq_emod h2
  rw [h3]; unfold parityAdjust at *; rw [h1] at *; omega

theorem parityAdjust_two_bounds {c : ℤ} (hc : 0 ≤ c) :
    c ≤ parityAdjust c 2 ∧ parityAdjust c 2 ≤ c + 1 := by
  unfold parityAdjust; rw [tmod_two_eq_emod hc]; omega

theorem tdiv_nonneg_eq_ediv {a : ℤ} (ha : 0 ≤ a) : Int.tdiv a 2 = a / 2 :=
  Int.tdiv_eq_ediv ha (by norm_num)

/-- **C1.** For known bounds `low < high` with `high - low > mult` and the
    default scale factor 2, the next trial width the controller computes
    (`current = (high+low)/2` followed by `current += current % mult`) lies
    strictly between `low` and `high` and is divisible by `mult`. -/
theorem c1_next_width_strictly_between (uni : Bool) (low high : ℤ)
    (hl : 0 ≤ low) (hgap : high - low > udsd_multiplier uni) :
    low < parityAdjust (divScale (high + low) false) (udsd_multiplier uni) ∧
    parityAdjust (divScale (high + low) false) (udsd_multiplier uni) < high ∧
    Int.tmod (parityAdjust (divScale (high + low) false) (udsd_multiplier uni))
      (udsd_multiplier uni) = 0 := by
  have hsum : 0 ≤ high + low := by
    unfold udsd_multiplier at hgap; split at hgap <;> omega
  have hdiv : divScale (high + low) false = (high + low) / 2 := by
    simp [divScale, tdiv_nonneg_eq_ediv hsum]
  have hq : 0 ≤ (high + low) / 2 := by positivity
  cases uni with
  | false =>
      have hmu : udsd_multiplier false = (1:ℤ) := rfl
      rw [hmu] at hgap ⊢
      rw [hdiv, parityAdjust_one]
      refine ⟨by omega, by omega, Int.tmod_one _⟩
  | true =>
      have hmu : udsd_multiplier true = (2:ℤ) := rfl
      rw [hmu] at hgap ⊢
      have heven := parityAdjust_two_even hq
      have hb := parityAdjust_two_bounds hq
      rw [hdiv]
      refine ⟨by omega, ?_, heven⟩
      -- next ≤ (high+low)/2 + 1 and (high+low)/2 ≤ high - 2
      have hhl : (high + low) / 2 ≤ high - 2 := by omega
      omega

/-- Witness for C1 at `uni`, `low = 4`, `high = 10`: the next width is 8. -/
theorem c1_next_width_strictly_between_witness :
    (0:ℤ) ≤ 4 ∧ (10:ℤ) - 4 > udsd_multiplier true ∧
    (4 < parityAdjust (divScale (10 + 4) false) (udsd_multiplier true) ∧
     parityAdjust (divScale (10 + 4) false) (udsd_multiplier true) < 10 ∧
     Int.tmod (parityAdjust (divScale (10 + 4) false) (udsd_multiplier true))
       (udsd_multiplier true) = 0) :=
  ⟨by norm_num, by decide,
   c1_next_width_strictly_between true 4 10 (by norm_num) (by decide)⟩

/-- **C9.** `comp_width` computes: `peak` for a uniform profile;
    `peak * exp(-(x-xpeak)^2 / (2*width^2)) + dc` for gaussian;
    `peak + dc` when `|x - xpeak| ≤ width/2` and `dc` otherwise for pulse;
    `peak + dc` when `x - xpeak` lies in `(-separation/2, separation/2]` and
    `dc` otherwise for delta; a fatal error on an unknown profile kind. -/
theorem c9_comp_width_characterization (expQ : ℚ → ℚ) (chan : t_chan)
    (x separation : ℚ) :
    comp_width expQ chan x separation =
      match chan.type with
      | .uniform => .ok chan.peak
      | .gaussian => .ok (chan.peak *
          expQ (-((x - chan.xpeak) ^ 2 / (2 * chan.width ^ 2))) + chan.dc)
      | .pulse => .ok (if |x - chan.xpeak| ≤ chan.width / 2
          then chan.peak + chan.dc else chan.dc)
      | .delta => .ok (if -separation / 2 < x - chan.xpeak ∧
            x - chan.xpeak ≤ separation / 2
          then chan.peak + chan.dc else chan.dc)
      | .other v => .error (.unknownChanType v) := by
  cases htype : chan.type with
  | uniform => simp [comp_width, htype]
  | gaussian =>
      simp only [comp_width, htype]
      have harg : (x - chan.xpeak) * (x - chan.xpeak) /
          (2 * chan.width * chan.width) =
          (x - chan.xpeak) ^ 2 / (2 * chan.width ^ 2) := by ring
      rw [harg]
  | pulse =>
      simp only [comp_width, htype]
      rcases le_or_lt (|x - chan.xpeak|) (chan.width / 2) with h | h
      · rw [if_neg (not_lt.mpr h), if_pos h]
      · rw [if_pos h, if_neg (not_le.mpr h)]; ring_nf
  | delta =>
      simp only [comp_width, htype]
      by_cases h : -separation / 2 < x - chan.xpeak ∧
          x - chan.xpeak ≤ separation / 2
      · rw [if_pos h, if_pos h]
      · rw [if_neg h, if_neg h]; ring_nf
  | other v => simp [comp_width, htype]

/-! ### `init_chan` (lines 563-636) -/

/-- The I/O channel width `nio` (lines 576-578):
    `(int) floor(cfactor * chan_width_io + 0.5)`, replaced by 1 when zero. -/
def nio_width (cfactor : ℤ) (cwio : ℚ) : ℤ :=
  if ⌊(cfactor : ℚ) * cwio + 1/2⌋ = 0 then 1 else ⌊(cfactor : ℚ) * cwio + 1/2⌋

/-- One entry of `chan_width.x_list` (resp. `y_list`) as `init_chan` fills it
    for a grid dimension `n`: indices `0` and `n` hold the I/O width; an
    interior index `j` (present only when `n > 1`) holds the profile value at
    normalized position `(j-1)/(n-2)`, scaled by `cfactor`, rounded half-up
    (`floor(v + 0.5)`) and floored at one.  For `n = 2` the C separation
    `1.0/(n-2.0)` is the IEEE infinity, reached only by the delta branch
    comparisons; the embedding keeps the literal expression, which in `ℚ`
    evaluates to `0`. -/
def chanEntry (expQ : ℚ → ℚ) (cfactor : ℤ) (ch : t_chan) (cwio : ℚ)
    (n j : ℕ) : Except VprErr ℤ :=
  if j = 0 ∨ j = n then .ok (nio_width cfactor cwio)
  else
    match comp_width expQ ch (((j : ℚ) - 1) / ((n : ℚ) - 2))
        (1 / ((n : ℚ) - 2)) with
    | .error e => .error e
    | .ok v => .ok (max (⌊(cfactor : ℚ) * v + 1/2⌋) 1)

/-- Sequence a list of fallible entries, stopping at the first error, as the
    C loop aborts at the first `vpr_throw` raised by `comp_width`. -/
def exceptMap (ent : ℕ → Except VprErr ℤ) : List ℕ → Except VprErr (List ℤ)
  | [] => .ok []
  | j :: js =>
    match ent j with
    | .error e => .error e
    | .ok v =>
      match exceptMap ent js with
      | .error e => .error e
      | .ok vs => .ok (v :: vs)

/-- The full per-position list (indices `0..n`) for one axis. -/
def chanList (expQ : ℚ → ℚ) (cfactor : ℤ) (ch : t_chan) (cwio : ℚ) (n : ℕ) :
    Except VprErr (List ℤ) :=
  exceptMap (chanEntry expQ cfactor ch cwio n) (List.range (n + 1))

/-- `t_chan_width`: the filled track-count lists plus the cached aggregates
    of lines 611-623 (`max` seeded with 0, the per-axis extrema seeded with
    `INT_MIN` / `INT_MAX`). -/
structure ChanWidths where
  x_list : List ℤ
  y_list : List ℤ
  cw_max : ℤ
  x_max : ℤ
  x_min : ℤ
  y_max : ℤ
  y_min : ℤ
deriving DecidableEq, Repr

/-- `init_chan` (lines 563-636): materialize a width factor `cfactor` into
    per-row (`x_list`, indices `0..ny`) and per-column (`y_list`, indices
    `0..nx`) track counts. -/
def init_chan (expQ : ℚ → ℚ) (cfactor : ℤ) (dist : t_chan_width_dist)
    (nx ny : ℕ) : Except VprErr ChanWidths :=
  match chanList expQ cfactor dist.chan_x_dist dist.chan_width_io ny with
  | .error e => .error e
  | .ok xs =>
    match chanList expQ cfactor dist.chan_y_dist dist.chan_width_io nx with
    | .error e => .error e
    | .ok ys =>
      .ok { x_list := xs, y_list := ys,
            cw_max := ys.foldl max (xs.foldl max 0),
            x_max := xs.foldl max (-2147483648),
            x_min := xs.foldl min 2147483647,
            y_max := ys.foldl max (-2147483648),
            y_min := ys.foldl min 2147483647 }

theorem exceptMap_ok_forall {ent : ℕ → Except VprErr ℤ} :
    ∀ {l : List ℕ} {out : List ℤ}, exceptMap ent l = .ok out →
      ∀ v ∈ out, ∃ j ∈ l, ent j = .ok v := by
  intro l
  induction l with
  | nil =>
      intro out h v hv
      simp only [exceptMap, Except.ok.injEq] at h
      subst h; simp at hv
  | cons j js ih =>
      intro out h v hv
      simp only [exceptMap] at h
      cases hj : ent j with
      | error e => rw [hj] at h; exact absurd h (by simp)
      | ok w =>
        rw [hj] at h
        cases hjs : exceptMap ent js with
        | error e => rw [hjs] at h; exact absurd h (by simp)
        | ok ws =>
          rw [hjs] at h
          simp only [Except.ok.injEq] at h
          subst h
          rcases List.mem_cons.mp hv with h1 | h2
          · exact ⟨j, List.mem_cons_self _ _, h1 ▸ hj⟩
          · obtain ⟨j2, hj2, hev⟩ := ih hjs v h2
            exact ⟨j2, List.mem_cons_of_mem _ hj2, hev⟩

theorem exceptMap_ok_head {ent : ℕ → Except VprErr ℤ} {j : ℕ} {js : List ℕ}
    {out : List ℤ} (h : exceptMap ent (j :: js) = .ok out) :
    ∃ v vs, ent j = .ok v ∧ out = v :: vs := by
  simp only [exceptMap] at h
  cases hj : ent j with
  | error e => rw [hj] at h; exact absurd h (by simp)
  | ok w =>
    rw [hj] at h
    cases hjs : exceptMap ent js with
    | error e => rw [hjs] at h; exact absurd h (by simp)
    | ok ws =>
      rw [hjs] at h
      simp only [Except.ok.injEq] at h
      exact ⟨w, ws, rfl, h.symm⟩

theorem nio_width_ge_one {cfactor : ℤ} {cwio : ℚ} (hF : 0 < cfactor)
    (hio : 0 ≤ cwio) : 1 ≤ nio_width cfactor cwio := by
  unfold nio_width
  have harg : (0 : ℚ) ≤ (cfactor : ℚ) * cwio := by positivity
  have hfl : (0 : ℤ) ≤ ⌊(cfactor : ℚ) * cwio + 1/2⌋ := by
    apply Int.floor_nonneg.mpr; linarith
  split <;> omega

theorem chanEntry_ge_one {expQ : ℚ → ℚ} {cfactor : ℤ} {ch : t_chan} {cwio : ℚ}
    {n j : ℕ} {v : ℤ} (hF : 0 < cfactor) (hio : 0 ≤ cwio)
    (h : chanEntry expQ cfactor ch cwio n j = .ok v) : 1 ≤ v := by
  unfold chanEntry at h
  split at h
  · simp only [Except.ok.injEq] at h
    exact h ▸ nio_width_ge_one hF hio
  · cases hc : comp_width expQ ch (((j : ℚ) - 1) / ((n : ℚ) - 2))
        (1 / ((n : ℚ) - 2)) with
    | error e => rw [hc] at h; exact absurd h (by simp)
    | ok w =>
      rw [hc] at h
      simp only [Except.ok.injEq] at h
      exact h ▸ le_max_right _ _

theorem chanList_ge_one {expQ : ℚ → ℚ} {cfactor : ℤ} {ch : t_chan} {cwio : ℚ}
    {n : ℕ} {out : List ℤ} (hF : 0 < cfactor) (hio : 0 ≤ cwio)
    (h : chanList expQ cfactor ch cwio n = .ok out) : ∀ v ∈ out, 1 ≤ v := by
  intro v hv
  obtain ⟨j, _, hev⟩ := exceptMap_ok_forall h v hv
  exact chanEntry_ge_one hF hio hev

theorem chanList_head {expQ : ℚ → ℚ} {cfactor : ℤ} {ch : t_chan} {cwio : ℚ}
    {n : ℕ} {out : List ℤ} (h : chanList expQ cfactor ch cwio n = .ok out) :
    out.head? = some (nio_width cfactor cwio) := by
  unfold chanList at h
  rw [List.range_succ_eq_map] at h
  obtain ⟨v, vs, hent, hout⟩ := exceptMap_ok_head h
  unfold chanEntry at hent
  rw [if_pos (Or.inl rfl)] at hent
  simp only [Except.ok.injEq] at hent
  rw [hout, ← hent]; rfl

/-- The distribution of the C8 counterexample: a negative relative I/O
    channel width with unit uniform interior profiles. -/
def c8_dist : t_chan_width_dist :=
  { chan_width_io := -1,
    chan_x_dist := ⟨.uniform, 1, 0, 0, 0⟩,
    chan_y_dist := ⟨.uniform, 1, 0, 0, 0⟩ }

/-- **C8 counterexample.** With width factor 1 and `chan_width_io = -1`,
    `init_chan` produces boundary entries equal to `-1`: the boundary value
    `floor(cfactor*chan_width_io + 0.5) = -1` is not zero, so it is not
    replaced by 1, and the claimed invariant "every track count is at least
    one" fails. -/
theorem c8_negative_io_counterexample :
    init_chan id 1 c8_dist 2 2 =
      .ok { x_list := [-1, 1, -1], y_list := [-1, 1, -1],
            cw_max := 1, x_max := 1, x_min := -1, y_max := 1, y_min := -1 } ∧
    (-1 : ℤ) ∈ [(-1 : ℤ), 1, -1] ∧ ¬(1 ≤ (-1 : ℤ)) := by
  refine ⟨?_, by decide, by decide⟩
  norm_num [init_chan, chanList, exceptMap, chanEntry, comp_width, nio_width,
    c8_dist, List.foldl, show List.range 3 = [0, 1, 2] from by decide]

/-- **C8 (amended).** For every width factor `F > 0` and any axis profiles,
    *provided the relative I/O channel width is nonnegative*, every entry of
    `x_list` and `y_list` produced by `init_chan` is at least 1: interior
    entries are the profile value scaled by `F`, rounded half-up, floored at
    1, and the boundary entry `floor(F*chan_width_io + 0.5)` is nonnegative
    and replaced by 1 when it is zero. -/
theorem c8_init_chan_entries_ge_one (expQ : ℚ → ℚ) (cfactor : ℤ)
    (dist : t_chan_width_dist) (nx ny : ℕ) (r : ChanWidths)
    (hF : 0 < cfactor) (hio : 0 ≤ dist.chan_width_io)
    (h : init_chan expQ cfactor dist nx ny = .ok r) :
    (∀ v ∈ r.x_list, 1 ≤ v) ∧ (∀ v ∈ r.y_list, 1 ≤ v) ∧
    r.x_list.head? = some (nio_width cfactor dist.chan_width_io) ∧
    r.y_list.head? = some (nio_width cfactor dist.chan_width_io) ∧
    1 ≤ nio_width cfactor dist.chan_width_io := by
  unfold init_chan at h
  cases hx : chanList expQ cfactor dist.chan_x_dist dist.chan_width_io ny with
  | error e => rw [hx] at h; exact absurd h (by simp)
  | ok xs =>
    rw [hx] at h
    cases hy : chanList expQ cfactor dist.chan_y_dist dist.chan_width_io nx with
    | error e => rw [hy] at h; exact absurd h (by simp)
    | ok ys =>
      rw [hy] at h
      simp only [Except.ok.injEq] at h
      subst h
      exact ⟨chanList_ge_one hF hio hx, chanList_ge_one hF hio hy,
        chanList_head hx, chanList_head hy, nio_width_ge_one hF hio⟩

/-- The distribution of the C8 witness: I/O relative width one half. -/
def c8w_dist : t_chan_width_dist :=
  { chan_width_io := 1/2,
    chan_x_dist := ⟨.uniform, 1, 0, 0, 0⟩,
    chan_y_dist := ⟨.uniform, 1, 0, 0, 0⟩ }

/-- The `init_chan` output of the C8 witness. -/
def c8w_result : ChanWidths :=
  { x_list := [1, 1, 1], y_list := [1, 1, 1],
    cw_max := 1, x_max := 1, x_min := 1, y_max := 1, y_min := 1 }

/-- Witness for the amended C8 at `F = 1`, `chan_width_io = 1/2`,
    `nx = ny = 2`. -/
theorem c8_init_chan_entries_ge_one_witness :
    (∀ v ∈ c8w_result.x_list, 1 ≤ v) ∧ (∀ v ∈ c8w_result.y_list, 1 ≤ v) ∧
    c8w_result.x_list.head? = some (nio_width 1 c8w_dist.chan_width_io) ∧
    c8w_result.y_list.head? = some (nio_width 1 c8w_dist.chan_width_io) ∧
    1 ≤ nio_width 1 c8w_dist.chan_width_io :=
  c8_init_chan_entries_ge_one id 1 c8w_dist 2 2 c8w_result (by norm_num)
    (by norm_num [c8w_dist])
    (by norm_num [init_chan, chanList, exceptMap, chanEntry, comp_width,
      nio_width, c8w_dist, c8w_result, List.foldl,
      show List.range 3 = [0, 1, 2] from by decide])

/-! ### The binary-search controller (lines 214-561) -/

/-- The architecture/options inputs consumed by
    `binary_search_place_and_route`.  `fixedW = none` models
    `NO_FIXED_CHANNEL_WIDTH`; `hint` is `min_chan_width_hint`; `maxPins` is
    `max_pins_per_clb` (a maximum seeded with 0, hence nonnegative);
    `verify` is `verify_binary_search`. -/
structure BSConfig where
  uni : Bool
  fixedW : Option ℤ
  Fs : ℤ
  hint : ℤ
  maxPins : ℤ
  verify : Bool
deriving DecidableEq, Repr

/-- The directionality step multiplier of this configuration. -/
def BSConfig.mult (cfg : BSConfig) : ℤ := udsd_multiplier cfg.uni

/-- `using_minw_hint` (lines 236, 283-287): set only in unconstrained mode
    when a positive hint is given. -/
def BSConfig.usingHint (cfg : BSConfig) : Bool :=
  cfg.fixedW.isNone && decide (0 < cfg.hint)

/-- Loop state of the controller: `current`, `low`, `high` (with the `-1`
    unknown sentinel), `attempt_count`, and the `Fc_clipped` flag
    (initialized `false` at line 230 and never assigned afterwards). -/
structure BSState where
  current : ℤ
  low : ℤ
  high : ℤ
  attempts : ℕ
  fcClipped : Bool
deriving DecidableEq, Repr

/-- The initial `current` (lines 277-292). -/
def initCurrent (cfg : BSConfig) : ℤ :=
  match cfg.fixedW with
  | some W => W + 5 * cfg.mult
  | none => if 0 < cfg.hint then cfg.hint
            else cfg.maxPins + Int.tmod cfg.maxPins 2

/-- The initial loop state (lines 277-315). -/
def initState (cfg : BSConfig) : BSState :=
  { current := initCurrent cfg,
    low := match cfg.fixedW with
           | some W => W - 1 * cfg.mult
           | none => -1,
    high := -1, attempts := 0, fcClipped := false }

/-- The entry constraint checks of lines 297-309: an odd starting width in a
    unidirectional architecture, or an `Fs` that is not a multiple of three
    in a bidirectional one, aborts before any trial runs.
    (`VTR_ASSERT(current > 0)` at line 310 is a sanity assertion macro, not a
    `vpr_throw` site, and is outside the raising behaviour modelled here.) -/
def entryCheck (cfg : BSConfig) : Except VprErr Unit :=
  if cfg.uni then
    if Int.tmod (initCurrent cfg) 2 ≠ 0 then .error .oddChanWidth else .ok ()
  else
    if Int.tmod cfg.Fs 3 ≠ 0 then .error .fsNotMultipleOf3 else .ok ()

/-- Result of one iteration of the `while (final == -1)` loop: a
    `vpr_throw`, loop exit with a settled `final` (the `break` of line 344
    or a `final` assignment), or continuation with the updated state. -/
inductive StepRes where
  | fatal (e : VprErr)
  | stop (final : ℤ) (s : BSState)
  | next (s : BSState)
deriving DecidableEq, Repr

/-- One iteration's observable effects: the width passed to `try_route` (if
    the iteration reached the trial), whether the `Routing rejected,
    Fc_output was too high` branch of lines 406-409 ran, and the control
    result. -/
structure StepOut where
  probed : Option ℤ
  rejected : Bool
  res : StepRes
deriving DecidableEq, Repr

/-- The state after a successful trial (lines 368-404): `high = current`,
    and the next `current` halves `(high+low)` when `low` is known
    (line 401) or `high` alone when it is not (line 403), followed by the
    parity adjustment of line 431. -/
def bsSuccessState (cfg : BSConfig) (hintNow : Bool) (s : BSState) : BSState :=
  { current := parityAdjust
      (if s.low ≠ -1 then divScale (s.current + s.low) hintNow
       else divScale s.current hintNow) cfg.mult,
    low := s.low, high := s.current, attempts := s.attempts + 1,
    fcClipped := s.fcClipped }

/-- The state after a failed trial with a known upper bound (lines 410-416):
    `low = current`, next `current = (high+low)/2`, parity-adjusted. -/
def bsFailHighState (cfg : BSConfig) (hintNow : Bool) (s : BSState) : BSState :=
  { current := parityAdjust (divScale (s.high + s.current) hintNow) cfg.mult,
    low := s.current, high := s.high, attempts := s.attempts + 1,
    fcClipped := s.fcClipped }

/-- The state after a failed trial with no upper bound in fixed-width mode
    (lines 420-421): `low = current`, next `current = low + 5*mult`,
    parity-adjusted. -/
def bsFailFsState (cfg : BSConfig) (s : BSState) : BSState :=
  { current := parityAdjust (s.current + 5 * cfg.mult) cfg.mult,
    low := s.current, high := s.high, attempts := s.attempts + 1,
    fcClipped := s.fcClipped }

/-- The state after a failed trial with no upper bound in unconstrained mode
    (line 427): `low = current`, next `current = low * scale_factor`,
    parity-adjusted. -/
def bsFailGrowState (cfg : BSConfig) (hintNow : Bool) (s : BSState) : BSState :=
  { current := parityAdjust (mulScale s.current hintNow) cfg.mult,
    low := s.current, high := s.high, attempts := s.attempts + 1,
    fcClipped := s.fcClipped }

/-- Lines 356-431: the bound/`final` update applied once `try_route` has
    returned `outc` for width `s.current`.  `hintNow` captures
    `using_minw_hint && attempt_count == 1` after the increment of line 363;
    `final2` fuses the `final` assignments of lines 369-371 (old
    `high == current`) and 398-399 (gap within one step, evaluated after
    `high = current`), which write the same value when both fire. -/
def bsUpdate (cfg : BSConfig) (outc : Bool) (s : BSState) : StepOut :=
  let hintNow := cfg.usingHint && decide (s.attempts + 1 = 1)
  if outc && !s.fcClipped then
    let final2 : ℤ := if s.current - s.low ≤ 1 * cfg.mult then s.current
                      else if s.current = s.high then s.current else -1
    if final2 ≠ -1 then
      ⟨some s.current, false, .stop final2 (bsSuccessState cfg hintNow s)⟩
    else ⟨some s.current, false, .next (bsSuccessState cfg hintNow s)⟩
  else
    -- lines 405-430
    let rejected := outc && s.fcClipped
    if s.high ≠ -1 then
      if s.high - s.current ≤ 1 * cfg.mult then
        ⟨some s.current, rejected, .stop s.high (bsFailHighState cfg hintNow s)⟩
      else ⟨some s.current, rejected, .next (bsFailHighState cfg hintNow s)⟩
    else
      match cfg.fixedW with
      | some W =>
        if s.current < W + 30 then
          ⟨some s.current, rejected, .next (bsFailFsState cfg s)⟩
        else ⟨some s.current, rejected, .fatal .fsSearchTooLarge⟩
      | none =>
        ⟨some s.current, rejected, .next (bsFailGrowState cfg hintNow s)⟩

/-- Lines 341-431: the Fs floor check (`final = high; break` when
    `current * 3 < Fs`), then the trial and bound update.  `try_place` has no
    effect visible to the search state and is omitted. -/
def bsStepAfterGuard (cfg : BSConfig) (outc : Bool) (s : BSState) : StepOut :=
  if s.current * 3 < cfg.Fs then ⟨none, false, .stop s.high s⟩
  else bsUpdate cfg outc s

/-- One full iteration of the controller loop (lines 318-432), starting with
    the overflow guards of lines 327-339. -/
def bsStep (cfg : BSConfig) (outc : Bool) (s : BSState) : StepOut :=
  match cfg.fixedW with
  | some W =>
    if W * 4 < s.current then ⟨none, false, .fatal .over4W⟩
    else bsStepAfterGuard cfg outc s
  | none =>
    if 1000 < s.current then ⟨none, false, .fatal .over1000⟩
    else bsStepAfterGuard cfg outc s

/-- Outcome of running the controller loop to completion. -/
inductive LoopRes where
  | fatal (e : VprErr)
  | finished (final : ℤ) (s : BSState)
  | outOfFuel (s : BSState)
deriving DecidableEq, Repr

/-- Run the `while (final == -1)` loop, collecting the widths passed to
    `try_route`.  `oracle n` is the outcome of the `n`-th `try_route` call:
    the routing oracle is stochastic, so outcomes are indexed by call
    number, not by width. -/
def searchLoop (cfg : BSConfig) (oracle : ℕ → Bool) :
    ℕ → BSState → List ℤ × LoopRes
  | 0, s => ([], .outOfFuel s)
  | fuel + 1, s =>
    let o := bsStep cfg (oracle s.attempts) s
    let ps := match o.probed with | some w => [w] | none => []
    match o.res with
    | .fatal e => (ps, .fatal e)
    | .stop f s' => (ps, .finished f s')
    | .next s' =>
      let pr := searchLoop cfg oracle fuel s'
      (ps ++ pr.1, pr.2)

/-- State of the verification loop (lines 443-496). -/
structure VerState where
  current : ℤ
  final : ℤ
  prev : Bool
  prev2 : Bool
  attempts : ℕ
  fcClipped : Bool
deriving DecidableEq, Repr

/-- Lines 448-452: the verifier starts two widths below the settled `final`
    with both presumed-success flags set. -/
def verInit (final : ℤ) (attempts : ℕ) (fc : Bool) : VerState :=
  { current := final - 2, final := final, prev := true, prev2 := true,
    attempts := attempts, fcClipped := fc }

/-- The per-probe update of the verification loop (lines 471-494): accept a
    success exactly when `Fc_clipped` is false (then `final = current`),
    shift the two presumed-outcome flags, and decrement the probe by one, or
    by two under unidirectional routing. -/
def verNext (cfg : BSConfig) (success : Bool) (s : VerState) : VerState :=
  { current := s.current - (if cfg.uni then 2 else 1),
    final := if success && !s.fcClipped then s.current else s.final,
    prev := success, prev2 := s.prev,
    attempts := s.attempts + 1, fcClipped := s.fcClipped }

/-- The `while (prev2_success || prev_success)` verification loop
    (lines 454-495), collecting the widths it passes to `try_route`.
    It breaks below the fixed-width floor or below width 1. -/
def verLoop (cfg : BSConfig) (oracle : ℕ → Bool) :
    ℕ → VerState → List ℤ × VerState
  | 0, s => ([], s)
  | fuel + 1, s =>
    if s.prev2 || s.prev then
      if (match cfg.fixedW with
          | some W => decide (s.current < W)
          | none => false) then ([], s)
      else if s.current < 1 then ([], s)
      else
        (s.current ::
          (verLoop cfg oracle fuel (verNext cfg (oracle s.attempts) s)).1,
         (verLoop cfg oracle fuel (verNext cfg (oracle s.attempts) s)).2)
    else ([], s)

/-- Result of the whole `binary_search_place_and_route` run, up to fuel. -/
inductive RunRes where
  | fatal (e : VprErr)
  | finished (final : ℤ)
  | outOfFuel
deriving DecidableEq, Repr

/-- Observable outcome of `binary_search_place_and_route`: every width
    passed to `try_route` (controller first, then verifier), the returned
    `final`, and whether the closing `Fc_clipped` warning of lines 528-531
    fires. -/
structure RunOut where
  probes : List ℤ
  res : RunRes
  clipWarning : Bool
deriving DecidableEq, Repr

/-- `binary_search_place_and_route` (lines 214-561): entry checks, the
    binary-search loop and — when `verify_binary_search` is set — the
    verification pass, continuing the same `try_route` outcome stream. -/
def binary_search (cfg : BSConfig) (oracle : ℕ → Bool) (cFuel vFuel : ℕ) :
    RunOut :=
  match entryCheck cfg with
  | .error e => ⟨[], .fatal e, false⟩
  | .ok _ =>
    match searchLoop cfg oracle cFuel (initState cfg) with
    | (ps, .fatal e) => ⟨ps, .fatal e, false⟩
    | (ps, .outOfFuel _) => ⟨ps, .outOfFuel, false⟩
    | (ps, .finished f s) =>
      if cfg.verify then
        let pr := verLoop cfg oracle vFuel (verInit f s.attempts s.fcClipped)
        ⟨ps ++ pr.1, .finished pr.2.final, pr.2.fcClipped⟩
      else ⟨ps, .finished f, s.fcClipped⟩

/-- Lines 119-125 of `place_and_route`: in search mode the returned channel
    width is stored into the solution and `success = (channel_width > 0)`;
    a nonpositive result is a normal negative outcome, not an abort. -/
def place_and_route_search_success (channel_width : ℤ) : Bool :=
  decide (0 < channel_width)

/-- States the controller loop can reach at the top of an iteration, for a
    given configuration and `try_route` outcome stream. -/
inductive Reachable (cfg : BSConfig) (oracle : ℕ → Bool) : BSState → Prop
  | init : entryCheck cfg = .ok () → Reachable cfg oracle (initState cfg)
  | step {s s'} : Reachable cfg oracle s →
      (bsStep cfg (oracle s.attempts) s).res = .next s' →
      Reachable cfg oracle s'

/-! ### C2: the convergence verifier around `final = 20` (bidirectional) -/

/-- A bidirectional, unconstrained configuration for the verifier
    scenarios. -/
def c2_cfg : BSConfig :=
  { uni := false, fixedW := none, Fs := 3, hint := 0, maxPins := 1,
    verify := true }

/-- Every width the verification loop probes is at most the starting probe,
    and its final is either unchanged or one of those probed widths. -/
theorem verLoop_probes_le (cfg : BSConfig) (oracle : ℕ → Bool) :
    ∀ (fuel : ℕ) (s : VerState),
      (∀ w ∈ (verLoop cfg oracle fuel s).1, w ≤ s.current) ∧
      ((verLoop cfg oracle fuel s).2.final = s.final ∨
        (verLoop cfg oracle fuel s).2.final ≤ s.current) := by
  intro fuel
  induction fuel with
  | zero => intro s; simp [verLoop]
  | succ n ih =>
      intro s
      simp only [verLoop]
      split
      · split
        · simp
        · split
          · simp
          · dsimp only
            have hdec : (verNext cfg (oracle s.attempts) s).current ≤
                s.current - 1 := by
              simp only [verNext]; split <;> omega
            have hfin : (verNext cfg (oracle s.attempts) s).final = s.current ∨
                (verNext cfg (oracle s.attempts) s).final = s.final := by
              simp only [verNext]; split <;> simp
            obtain ⟨ihp, ihf⟩ := ih (verNext cfg (oracle s.attempts) s)
            constructor
            · intro w hw
              rcases List.mem_cons.mp hw with h1 | h2
              · omega
              · have := ihp w h2; omega
            · rcases ihf with h1 | h2
              · rcases hfin with h3 | h3
                · right; rw [h1, h3]
                · left; rw [h1, h3]
              · right; omega
      · simp

/-- **C2 (amended).**  With `final = 20` under bidirectional routing, the
    verifier starts at probe `final - 2 = 18` and only decrements, so width
    19 is never probed and `final` can never become 19, whatever the routing
    outcomes; if the probes at 18 and 17 both fail, the loop stops and
    `final` stays 20 (probe list `[18, 17]`); if the first probe (width 18)
    succeeds and the following two fail, `final` becomes 18 (probe list
    `[18, 17, 16]`). -/
theorem c2_verifier_amended :
    (∀ (oracle : ℕ → Bool) (fuel : ℕ) (a : ℕ) (fc : Bool),
      (19 : ℤ) ∉ (verLoop c2_cfg oracle fuel (verInit 20 a fc)).1 ∧
      (verLoop c2_cfg oracle fuel (verInit 20 a fc)).2.final ≠ 19) ∧
    (verLoop c2_cfg (fun _ => false) 30 (verInit 20 0 false)).1 = [18, 17] ∧
    (verLoop c2_cfg (fun _ => false) 30 (verInit 20 0 false)).2.final = 20 ∧
    (verLoop c2_cfg (fun n => decide (n = 0)) 30 (verInit 20 0 false)).1 =
      [18, 17, 16] ∧
    (verLoop c2_cfg (fun n => decide (n = 0)) 30
      (verInit 20 0 false)).2.final = 18 := by
  refine ⟨?_, by decide, by decide, by decide, by decide⟩
  intro oracle fuel a fc
  obtain ⟨hp, hf⟩ := verLoop_probes_le c2_cfg oracle fuel (verInit 20 a fc)
  have hcur : (verInit 20 a fc).current = 18 := rfl
  have hfin : (verInit 20 a fc).final = 20 := rfl
  rw [hcur] at hp
  rw [hcur, hfin] at hf
  constructor
  · intro hmem
    have := hp 19 hmem
    omega
  · rcases hf with h1 | h2
    · omega
    · omega

/-- **C2 counterexample.**  The claimed scenario: the routing oracle
    succeeds exactly at width 19 (and fails at 18 and 17).  The verifier
    probes only 18 and 17 — width 19 is never probed — and leaves
    `final = 20`, not 19 as the claim states. -/
theorem c2_probe19_counterexample :
    (verLoop c2_cfg (fun n => decide ((18 : ℤ) - n = 19)) 30
      (verInit 20 0 false)).1 = [18, 17] ∧
    (verLoop c2_cfg (fun n => decide ((18 : ℤ) - n = 19)) 30
      (verInit 20 0 false)).2.final = 20 ∧
    (19 : ℤ) ∉ ([18, 17] : List ℤ) ∧ (20 : ℤ) ≠ 19 := by
  refine ⟨by decide, by decide, by decide, by decide⟩


/-! ### C7: the Fs floor stop and the infeasible (negative) return -/

/-- The verification loop is a no-op whenever its probe is already below
    width 1 (line 460-461), for any fuel. -/
theorem verLoop_below_one (cfg : BSConfig) (oracle : ℕ → Bool) (fuel : ℕ)
    (s : VerState) (h : s.current < 1) : verLoop cfg oracle fuel s = ([], s) := by
  cases fuel with
  | zero => rfl
  | succ n =>
      simp only [verLoop]
      split
      · split <;> first | rfl | rw [if_pos h]
      · rfl

/-- **C7.** If the overflow guards pass and `3 * current < Fs` at the top of
    a trial, the loop stops at once with `final = high` (no trial runs this
    iteration); if `high` is still unknown (`-1`), the verification pass
    leaves the `-1` unchanged and `place_and_route` turns the nonpositive
    width into a normal `success = false` outcome — not a fatal abort. -/
theorem c7_fs_floor_stop (cfg : BSConfig) (oracle : ℕ → Bool) (s : BSState)
    (fuel vfuel : ℕ) (a : ℕ) (fc : Bool)
    (hg1 : ∀ W, cfg.fixedW = some W → ¬(W * 4 < s.current))
    (hg2 : cfg.fixedW = none → ¬(1000 < s.current))
    (hfs : s.current * 3 < cfg.Fs) :
    searchLoop cfg oracle (fuel + 1) s = ([], .finished s.high s) ∧
    (verLoop cfg oracle vfuel (verInit (-1) a fc)).2.final = -1 ∧
    place_and_route_search_success (-1) = false := by
  have hafter : bsStepAfterGuard cfg (oracle s.attempts) s =
      ⟨none, false, .stop s.high s⟩ := by
    unfold bsStepAfterGuard; rw [if_pos hfs]
  have hstep : bsStep cfg (oracle s.attempts) s =
      ⟨none, false, .stop s.high s⟩ := by
    unfold bsStep
    split
    · rename_i W hfw
      rw [if_neg (hg1 W hfw)]
      exact hafter
    · rename_i hfw
      rw [if_neg (hg2 hfw)]
      exact hafter
  refine ⟨by simp [searchLoop, hstep], ?_, by decide⟩
  rw [verLoop_below_one cfg oracle vfuel _ (by norm_num [verInit])]
  rfl

/-! ### C6: characterization of all fatal aborts -/

theorem entryCheck_error_iff (cfg : BSConfig) (e : VprErr) :
    entryCheck cfg = .error e ↔
      (cfg.uni = true ∧ Int.tmod (initCurrent cfg) 2 ≠ 0 ∧
        e = .oddChanWidth) ∨
      (cfg.uni = false ∧ Int.tmod cfg.Fs 3 ≠ 0 ∧ e = .fsNotMultipleOf3) := by
  unfold entryCheck
  cases hu : cfg.uni with
  | true =>
      by_cases h : Int.tmod (initCurrent cfg) 2 = 0
      · simp [h, eq_comm]
      · simp [h, eq_comm]
  | false =>
      by_cases h : Int.tmod cfg.Fs 3 = 0
      · simp [h, eq_comm]
      · simp [h, eq_comm]

theorem bsUpdate_fatal_iff (cfg : BSConfig) (outc : Bool) (s : BSState)
    (e : VprErr) :
    (bsUpdate cfg outc s).res = .fatal e ↔
      ((outc && !s.fcClipped) = false ∧ s.high = -1 ∧
       ∃ W, cfg.fixedW = some W ∧ W + 30 ≤ s.current ∧
         e = .fsSearchTooLarge) := by
  unfold bsUpdate
  by_cases hsf : (outc && !s.fcClipped) = true
  · rw [if_pos hsf]
    constructor
    · intro h
      dsimp only at h
      split at h <;> first
        | (split at h <;> first
            | (split at h <;> simp at h)
            | simp at h)
        | simp at h
    · rintro ⟨hf, -⟩
      rw [hsf] at hf
      exact absurd hf (by simp)
  · have hsf2 : (outc && !s.fcClipped) = false := by
      cases houtc : (outc && !s.fcClipped)
      · rfl
      · exact absurd houtc hsf
    rw [if_neg hsf]
    by_cases hh : s.high = -1
    · rw [if_neg (by simpa using hh)]
      cases hfw : cfg.fixedW with
      | none =>
          constructor
          · intro h
            dsimp only at h
            simp at h
          · rintro ⟨-, -, W, hW, -⟩
            exact absurd hW (by simp)
      | some W =>
          constructor
          · intro h
            dsimp only at h
            split at h
            · simp at h
            · rename_i hlt
              simp only [StepRes.fatal.injEq] at h
              exact ⟨hsf2, hh, W, rfl, by omega, h.symm⟩
          · rintro ⟨-, -, W2, hW2, hcap, he⟩
            have hWW : W2 = W := by
              injection hW2 with hinj
              exact hinj.symm
            subst hWW
            dsimp only
            rw [if_neg (by omega : ¬(s.current < W2 + 30))]
            simp [he]
    · rw [if_pos (by simpa using hh)]
      constructor
      · intro h
        split at h <;> simp at h
      · rintro ⟨-, hhigh, -⟩
        exact absurd hhigh hh

theorem bsStepAfterGuard_fatal_iff (cfg : BSConfig) (outc : Bool)
    (s : BSState) (e : VprErr) :
    (bsStepAfterGuard cfg outc s).res = .fatal e ↔
      (¬(s.current * 3 < cfg.Fs) ∧ (outc && !s.fcClipped) = false ∧
       s.high = -1 ∧
       ∃ W, cfg.fixedW = some W ∧ W + 30 ≤ s.current ∧
         e = .fsSearchTooLarge) := by
  unfold bsStepAfterGuard
  by_cases hfs : s.current * 3 < cfg.Fs
  · rw [if_pos hfs]
    simp [hfs]
  · rw [if_neg hfs]
    rw [bsUpdate_fatal_iff]
    simp [hfs]

theorem bsStep_fatal_iff (cfg : BSConfig) (outc : Bool) (s : BSState)
    (e : VprErr) :
    (bsStep cfg outc s).res = .fatal e ↔
      (∃ W, cfg.fixedW = some W ∧ W * 4 < s.current ∧ e = .over4W) ∨
      (cfg.fixedW = none ∧ 1000 < s.current ∧ e = .over1000) ∨
      (∃ W, cfg.fixedW = some W ∧ ¬(W * 4 < s.current) ∧
       ¬(s.current * 3 < cfg.Fs) ∧ (outc && !s.fcClipped) = false ∧
       s.high = -1 ∧ W + 30 ≤ s.current ∧ e = .fsSearchTooLarge) := by
  unfold bsStep
  cases hfw : cfg.fixedW with
  | none =>
      dsimp only
      by_cases hg : (1000 : ℤ) < s.current
      · rw [if_pos hg]
        constructor
        · intro h
          simp only [StepRes.fatal.injEq] at h
          exact Or.inr (Or.inl ⟨rfl, hg, h.symm⟩)
        · rintro (⟨W2, hW2, -, -⟩ | ⟨-, -, he⟩ | ⟨W2, hW2, -⟩)
          · exact absurd hW2 (by simp)
          · simp [he]
          · exact absurd hW2 (by simp)
      · rw [if_neg hg]
        rw [bsStepAfterGuard_fatal_iff]
        constructor
        · rintro ⟨-, -, -, W2, hW2, -⟩
          rw [hfw] at hW2
          exact absurd hW2 (by simp)
        · rintro (⟨W2, hW2, -⟩ | ⟨-, hlt, -⟩ | ⟨W2, hW2, -⟩)
          · exact absurd hW2 (by simp)
          · exact absurd hlt hg
          · exact absurd hW2 (by simp)
  | some W =>
      dsimp only
      by_cases hg : W * 4 < s.current
      · rw [if_pos hg]
        constructor
        · intro h
          simp only [StepRes.fatal.injEq] at h
          exact Or.inl ⟨W, rfl, hg, h.symm⟩
        · rintro (⟨W2, hW2, hlt, he⟩ | ⟨hnone, -⟩ | ⟨W2, hW2, hnlt, -⟩)
          · simp [he]
          · exact absurd hnone (by simp)
          · have hWW : W2 = W := by
              injection hW2 with hinj
              exact hinj.symm
            subst hWW
            exact absurd hg hnlt
      · rw [if_neg hg]
        rw [bsStepAfterGuard_fatal_iff]
        constructor
        · rintro ⟨hfs, hsf, hh, W2, hW2, hcap, he⟩
          rw [hfw] at hW2
          have hWW : W2 = W := by
            injection hW2 with hinj
            exact hinj.symm
          subst hWW
          exact Or.inr (Or.inr ⟨W2, rfl, hg, hfs, hsf, hh, hcap, he⟩)
        · rintro (⟨W2, hW2, hlt, he⟩ | ⟨hnone, -⟩ | ⟨W2, hW2, hnlt, hfs, hsf, hh, hcap, he⟩)
          · have hWW : W2 = W := by
              injection hW2 with hinj
              exact hinj.symm
            subst hWW
            exact absurd hlt hg
          · exact absurd hnone (by simp)
          · have hWW : W2 = W := by
              injection hW2 with hinj
              exact hinj.symm
            subst hWW
            exact ⟨hfs, hsf, hh, W2, hfw, hcap, he⟩

theorem comp_width_error_iff (expQ : ℚ → ℚ) (chan : t_chan)
    (x separation : ℚ) (e : VprErr) :
    comp_width expQ chan x separation = .error e ↔
      ∃ v, chan.type = .other v ∧ e = .unknownChanType v := by
  cases htype : chan.type with
  | uniform => simp [comp_width, htype]
  | gaussian => simp [comp_width, htype]
  | pulse => simp [comp_width, htype]
  | delta => simp [comp_width, htype]
  | other v => simp [comp_width, htype, eq_comm]

/-- **C6.** The embedded code raises (`vpr_throw`) exactly in the claimed
    cases and in no other: the entry checks fail precisely for an odd
    initial width under unidirectional routing or `Fs % 3 != 0` under
    bidirectional routing; a loop iteration aborts precisely when a trial
    width exceeds `4*W` in fixed-width mode, exceeds 1000 in unconstrained
    mode, or the `Wneed = f(Fs)` sub-search (fixed-width mode, failed trial,
    no upper bound) hits its cap; and `comp_width` faults precisely on an
    unknown profile kind. -/
theorem c6_fatal_cases_exactly :
    (∀ (cfg : BSConfig) (e : VprErr),
      entryCheck cfg = .error e ↔
        (cfg.uni = true ∧ Int.tmod (initCurrent cfg) 2 ≠ 0 ∧
          e = .oddChanWidth) ∨
        (cfg.uni = false ∧ Int.tmod cfg.Fs 3 ≠ 0 ∧
          e = .fsNotMultipleOf3)) ∧
    (∀ (cfg : BSConfig) (outc : Bool) (s : BSState) (e : VprErr),
      (bsStep cfg outc s).res = .fatal e ↔
        (∃ W, cfg.fixedW = some W ∧ W * 4 < s.current ∧ e = .over4W) ∨
        (cfg.fixedW = none ∧ 1000 < s.current ∧ e = .over1000) ∨
        (∃ W, cfg.fixedW = some W ∧ ¬(W * 4 < s.current) ∧
         ¬(s.current * 3 < cfg.Fs) ∧ (outc && !s.fcClipped) = false ∧
         s.high = -1 ∧ W + 30 ≤ s.current ∧ e = .fsSearchTooLarge)) ∧
    (∀ (expQ : ℚ → ℚ) (chan : t_chan) (x separation : ℚ) (e : VprErr),
      comp_width expQ chan x separation = .error e ↔
        ∃ v, chan.type = .other v ∧ e = .unknownChanType v) :=
  ⟨entryCheck_error_iff, bsStep_fatal_iff, comp_width_error_iff⟩

/-! ### Error bounds for the single-precision hint-scale operations -/

theorem roundHalfEven_close (x : ℚ) : |(roundHalfEven x : ℚ) - x| ≤ 1/2 := by
  have h1 : ((⌊x⌋ : ℤ) : ℚ) ≤ x := Int.floor_le x
  have h2 : x < ⌊x⌋ + 1 := Int.lt_floor_add_one x
  unfold roundHalfEven
  split_ifs with ha hb hc
  · rw [abs_le]; constructor <;> linarith
  · rw [abs_le]; push_cast; constructor <;> linarith
  · push_neg at ha hb
    have hr : x - ⌊x⌋ = 1/2 := le_antisymm hb ha
    rw [abs_le]; constructor <;> linarith
  · push_neg at ha hb
    have hr : x - ⌊x⌋ = 1/2 := le_antisymm hb ha
    rw [abs_le]; push_cast; constructor <;> linarith

theorem roundFloatPos_bounds {q : ℚ} (hq : 0 < q) :
    (1 - 1/16777216) * q ≤ roundFloatPos q ∧
    roundFloatPos q ≤ (1 + 1/16777216) * q := by
  have h2ne : (2:ℚ) ≠ 0 := by norm_num
  have hle : (2:ℚ) ^ Int.log 2 q ≤ q := by
    have := Int.zpow_log_le_self Nat.one_lt_two hq
    simpa using this
  have hm : q * 2 ^ ((23:ℤ) - Int.log 2 q) * 2 ^ (Int.log 2 q - 23) = q := by
    rw [mul_assoc, ← zpow_add₀ h2ne]
    norm_num
  have hpow : (0:ℚ) < 2 ^ (Int.log 2 q - (23:ℤ)) := by positivity
  have hclose := roundHalfEven_close (q * 2 ^ ((23:ℤ) - Int.log 2 q))
  have hdiff : |roundFloatPos q - q| ≤ (1/2) * 2 ^ (Int.log 2 q - (23:ℤ)) := by
    unfold roundFloatPos
    have heq : (roundHalfEven (q * 2 ^ ((23:ℤ) - Int.log 2 q)) : ℚ) *
        2 ^ (Int.log 2 q - 23) - q =
        ((roundHalfEven (q * 2 ^ ((23:ℤ) - Int.log 2 q)) : ℚ) -
          q * 2 ^ ((23:ℤ) - Int.log 2 q)) * 2 ^ (Int.log 2 q - 23) := by
      rw [sub_mul, hm]
    rw [heq, abs_mul, abs_of_pos hpow]
    exact mul_le_mul_of_nonneg_right hclose (le_of_lt hpow)
  have hbound : (1/2) * (2:ℚ) ^ (Int.log 2 q - (23:ℤ)) ≤ q / 16777216 := by
    have he1 : (1/2) * (2:ℚ) ^ (Int.log 2 q - (23:ℤ)) =
        2 ^ Int.log 2 q / 16777216 := by
      rw [zpow_sub₀ h2ne]
      norm_num
      ring
    rw [he1]
    apply div_le_div_of_nonneg_right hle ?_ |>.trans_eq rfl
    norm_num
  rw [abs_le] at hdiff
  constructor <;> nlinarith [hdiff.1, hdiff.2, hbound, hq.le]

theorem ratTrunc_eq_floor {q : ℚ} (h : 0 ≤ q) : ratTrunc q = ⌊q⌋ := by
  unfold ratTrunc
  rw [if_neg (not_lt.mpr h)]

/-- `(int)(a / 1.1f)` stays within `[0, a-1]` for positive `a`: the exact
    quotient is at most `0.9091 a` and single-precision rounding cannot
    bridge the gap to `a`. -/
theorem divScale_hint_bounds {a : ℤ} (ha : 0 ≤ a) :
    0 ≤ divScale a true ∧ divScale a true ≤ a ∧
    (1 ≤ a → divScale a true ≤ a - 1) := by
  rcases eq_or_lt_of_le ha with h0 | hpos
  · have hz : divScale a true = 0 := by
      rw [← h0]
      norm_num [divScale, roundFloat, ratTrunc]
    rw [hz]
    exact ⟨le_refl 0, by omega, by omega⟩
  · have haq : (0:ℚ) < (a:ℚ) := by exact_mod_cast hpos
    have hc11 : (0:ℚ) < c11 := by norm_num [c11]
    have hx : (0:ℚ) < (a:ℚ) / c11 := by positivity
    have hrf : roundFloat ((a:ℚ) / c11) = roundFloatPos ((a:ℚ) / c11) := by
      unfold roundFloat
      rw [if_neg (by positivity), if_neg (by push_neg; positivity)]
    obtain ⟨hlo, hhi⟩ := roundFloatPos_bounds hx
    have hub : roundFloatPos ((a:ℚ) / c11) < (a:ℚ) := by
      have key : (1 + 1/16777216) * ((a:ℚ) / c11) =
          (a:ℚ) * (16777217 * 8388608 / (16777216 * 9227469)) := by
        rw [show c11 = 9227469/8388608 from rfl]
        field_simp
        ring
      have hstep : (1 + 1/16777216) * ((a:ℚ) / c11) < (a:ℚ) := by
        rw [key]
        calc (a:ℚ) * (16777217 * 8388608 / (16777216 * 9227469)) <
            (a:ℚ) * 1 := by
              apply mul_lt_mul_of_pos_left (by norm_num) haq
          _ = (a:ℚ) := mul_one _
      linarith
    have hlb : (0:ℚ) ≤ roundFloatPos ((a:ℚ) / c11) := by nlinarith
    have hds : divScale a true = ⌊roundFloatPos ((a:ℚ) / c11)⌋ := by
      unfold divScale
      rw [if_pos rfl, hrf, ratTrunc_eq_floor hlb]
    have hfl : ⌊roundFloatPos ((a:ℚ) / c11)⌋ < a := Int.floor_lt.mpr hub
    have hfnn : 0 ≤ ⌊roundFloatPos ((a:ℚ) / c11)⌋ := Int.floor_nonneg.mpr hlb
    rw [hds]
    exact ⟨hfnn, by omega, fun _ => by omega⟩

/-- `(int)(a * 1.1f)` is at least `a` for nonnegative `a`: the exact product
    is at least `1.0999 a` and single-precision rounding cannot lose the
    excess. -/
theorem mulScale_hint_bounds {a : ℤ} (ha : 0 ≤ a) :
    0 ≤ mulScale a true ∧ a ≤ mulScale a true := by
  rcases eq_or_lt_of_le ha with h0 | hpos
  · have hz : mulScale a true = 0 := by
      rw [← h0]
      show ratTrunc (roundFloat (((0 : ℤ) : ℚ) * c11)) = 0
      norm_num [roundFloat, ratTrunc]
    rw [hz]
    omega
  · have haq : (0:ℚ) < (a:ℚ) := by exact_mod_cast hpos
    have hc11 : (0:ℚ) < c11 := by norm_num [c11]
    have hx : (0:ℚ) < (a:ℚ) * c11 := by positivity
    have hrf : roundFloat ((a:ℚ) * c11) = roundFloatPos ((a:ℚ) * c11) := by
      unfold roundFloat
      rw [if_neg (by positivity), if_neg (by push_neg; positivity)]
    obtain ⟨hlo, hhi⟩ := roundFloatPos_bounds hx
    have hge : (a:ℚ) ≤ roundFloatPos ((a:ℚ) * c11) := by
      have hstep : (a:ℚ) ≤ (1 - 1/16777216) * ((a:ℚ) * c11) := by
        have hcc : (1:ℚ) < (1 - 1/16777216) * c11 := by norm_num [c11]
        nlinarith
      linarith
    have hlb : (0:ℚ) ≤ roundFloatPos ((a:ℚ) * c11) := by linarith
    have hms : mulScale a true = ⌊roundFloatPos ((a:ℚ) * c11)⌋ := by
      unfold mulScale
      rw [if_pos rfl, hrf, ratTrunc_eq_floor hlb]
    have hfl : a ≤ ⌊roundFloatPos ((a:ℚ) * c11)⌋ := Int.le_floor.mpr hge
    have hfnn : 0 ≤ ⌊roundFloatPos ((a:ℚ) * c11)⌋ := Int.floor_nonneg.mpr hlb
    rw [hms]
    exact ⟨hfnn, hfl⟩
/-! ### Loop invariants of the controller -/

theorem parityAdjust_even_any (c : ℤ) :
    Int.tmod (parityAdjust c 2) 2 = 0 := by
  have h : parityAdjust c 2 = (c - Int.tdiv c 2) * 2 := by
    unfold parityAdjust; rw [Int.tmod_def]; ring
  rw [h, Int.tmod_def, Int.mul_tdiv_cancel _ (by norm_num)]
  ring

theorem parityAdjust_of_even {c : ℤ} (h : Int.tmod c 2 = 0) :
    parityAdjust c 2 = c := by
  unfold parityAdjust; rw [h]; ring

theorem mult_cases (cfg : BSConfig) :
    (cfg.uni = true ∧ cfg.mult = 2) ∨ (cfg.uni = false ∧ cfg.mult = 1) := by
  cases hu : cfg.uni
  · exact Or.inr ⟨rfl, by simp [BSConfig.mult, udsd_multiplier, hu]⟩
  · exact Or.inl ⟨rfl, by simp [BSConfig.mult, udsd_multiplier, hu]⟩

theorem mult_one_or_two (cfg : BSConfig) : cfg.mult = 1 ∨ cfg.mult = 2 := by
  rcases mult_cases cfg with ⟨-, h⟩ | ⟨-, h⟩
  · exact Or.inr h
  · exact Or.inl h

theorem hint_imp_none {cfg : BSConfig} (h : cfg.usingHint = true) :
    cfg.fixedW = none := by
  unfold BSConfig.usingHint at h
  rw [Bool.and_eq_true] at h
  exact Option.isNone_iff_eq_none.mp h.1

theorem hintNow_imp {cfg : BSConfig} {n : ℕ}
    (h : (cfg.usingHint && decide (n + 1 = 1)) = true) :
    cfg.usingHint = true ∧ n = 0 := by
  rw [Bool.and_eq_true] at h
  exact ⟨h.1, by simpa using of_decide_eq_true h.2⟩

/-- The halving update `parityAdjust ((high+low)/2) mult` lands strictly
    between known bounds whenever the gap exceeds one step. -/
theorem parity_halve_between {lo hi m : ℤ} (hm : m = 1 ∨ m = 2) (hlo : 0 ≤ lo)
    (hgap : m < hi - lo) :
    lo < parityAdjust (Int.tdiv (hi + lo) 2) m ∧
    parityAdjust (Int.tdiv (hi + lo) 2) m < hi := by
  have hsum : 0 ≤ hi + lo := by omega
  have htd : Int.tdiv (hi + lo) 2 = (hi + lo) / 2 := tdiv_nonneg_eq_ediv hsum
  rcases hm with h1 | h2
  · subst h1
    rw [htd, parityAdjust_one]
    omega
  · subst h2
    have hb : (hi + lo) / 2 ≤ parityAdjust ((hi + lo) / 2) 2 ∧
        parityAdjust ((hi + lo) / 2) 2 ≤ (hi + lo) / 2 + 1 :=
      parityAdjust_two_bounds (by omega)
    rw [htd] at *
    omega

/-- Halving a single nonnegative bound, with either scale factor, stays in
    `[0, c]` after the parity adjustment. -/
theorem halve_le_self {c m : ℤ} (hm : m = 1 ∨ m = 2) (hc : 0 ≤ c) (b : Bool) :
    0 ≤ parityAdjust (divScale c b) m ∧ parityAdjust (divScale c b) m ≤ c := by
  have hd : 0 ≤ divScale c b ∧ divScale c b ≤ c ∧
      (1 ≤ c → divScale c b ≤ c - 1) := by
    cases b
    · have he : divScale c false = Int.tdiv c 2 := rfl
      rw [he, tdiv_nonneg_eq_ediv hc]
      refine ⟨by omega, by omega, by omega⟩
    · exact divScale_hint_bounds hc
  rcases hm with h1 | h2
  · subst h1; rw [parityAdjust_one]; exact ⟨hd.1, hd.2.1⟩
  · subst h2
    have hb := parityAdjust_two_bounds hd.1
    rcases eq_or_lt_of_le hc with h0 | hp
    · have hz : divScale c b = 0 := by omega
      rw [hz]
      have hpz : parityAdjust 0 2 = 0 := rfl
      omega
    · have := hd.2.2 (by omega)
      omega

/-- Growing a nonnegative bound, with either scale factor, does not shrink
    it after the parity adjustment. -/
theorem grow_ge_self {c m : ℤ} (hm : m = 1 ∨ m = 2) (hc : 0 ≤ c) (b : Bool) :
    0 ≤ parityAdjust (mulScale c b) m ∧ c ≤ parityAdjust (mulScale c b) m := by
  have hd : 0 ≤ mulScale c b ∧ c ≤ mulScale c b := by
    cases b
    · have he : mulScale c false = 2 * c := rfl
      rw [he]; omega
    · exact mulScale_hint_bounds hc
  rcases hm with h1 | h2
  · subst h1; rw [parityAdjust_one]; exact hd
  · subst h2
    have hb := parityAdjust_two_bounds hd.1
    omega

/-- Configurations as the code can actually receive them: a requested fixed
    channel width is positive, and `max_pins_per_clb` is a maximum seeded
    with zero (lines 258-261), hence nonnegative. -/
def ValidCfg (cfg : BSConfig) : Prop :=
  (∀ W, cfg.fixedW = some W → 1 ≤ W) ∧ 0 ≤ cfg.maxPins

theorem initCurrent_some {cfg : BSConfig} {W : ℤ} (h : cfg.fixedW = some W) :
    initCurrent cfg = W + 5 * cfg.mult := by
  unfold initCurrent; rw [h]

theorem initCurrent_none {cfg : BSConfig} (h : cfg.fixedW = none) :
    initCurrent cfg = if 0 < cfg.hint then cfg.hint
      else cfg.maxPins + Int.tmod cfg.maxPins 2 := by
  unfold initCurrent; rw [h]

theorem initState_current (cfg : BSConfig) :
    (initState cfg).current = initCurrent cfg := rfl

theorem initState_low_some {cfg : BSConfig} {W : ℤ} (h : cfg.fixedW = some W) :
    (initState cfg).low = W - 1 * cfg.mult := by
  show (match cfg.fixedW with
        | some W => W - 1 * cfg.mult
        | none => (-1 : ℤ)) = W - 1 * cfg.mult
  rw [h]

theorem initState_low_none {cfg : BSConfig} (h : cfg.fixedW = none) :
    (initState cfg).low = -1 := by
  show (match cfg.fixedW with
        | some W => W - 1 * cfg.mult
        | none => (-1 : ℤ)) = -1
  rw [h]

/-- The invariant maintained at the top of every controller loop iteration. -/
structure SInv (cfg : BSConfig) (s : BSState) : Prop where
  fc : s.fcClipped = false
  cur_nonneg : 0 ≤ s.current
  low_lb : -1 ≤ s.low
  high_lb : -1 ≤ s.high
  low_le : s.low ≠ -1 → s.low ≤ s.current
  cur_le_high : s.high ≠ -1 → s.current ≤ s.high
  cur_lt_high : s.high ≠ -1 → s.low ≠ -1 → s.current < s.high
  parity : cfg.uni = true → Int.tmod s.current 2 = 0 ∧
    (s.low ≠ -1 → Int.tmod s.low 2 = 0) ∧
    (s.high ≠ -1 → Int.tmod s.high 2 = 0)
  fixedPar : ∀ W, cfg.fixedW = some W → cfg.uni = true → Int.tmod W 2 = 0
  fixedProg : ∀ W, cfg.fixedW = some W → s.high = -1 →
    ∃ k : ℤ, 1 ≤ k ∧ s.current = W + 5 * cfg.mult * k ∧ s.current ≤ W + 30
  attempts0 : cfg.fixedW = none → s.attempts = 0 → s.low = -1 ∧ s.high = -1

theorem entryCheck_ok_even {cfg : BSConfig} (huni : cfg.uni = true)
    (he : entryCheck cfg = .ok ()) : Int.tmod (initCurrent cfg) 2 = 0 := by
  unfold entryCheck at he
  rw [huni] at he
  simp only [if_true] at he
  by_cases h : Int.tmod (initCurrent cfg) 2 = 0
  · exact h
  · rw [if_pos h] at he
    exact absurd he (by simp)

theorem initState_inv (cfg : BSConfig) (hv : ValidCfg cfg)
    (he : entryCheck cfg = .ok ()) : SInv cfg (initState cfg) := by
  have hm := mult_one_or_two cfg
  have hcur : 0 ≤ initCurrent cfg := by
    cases hfw : cfg.fixedW with
    | some W =>
        rw [initCurrent_some hfw]
        have hW := hv.1 W hfw
        omega
    | none =>
        rw [initCurrent_none hfw]
        split
        · omega
        · have hmp := hv.2
          have := Int.tmod_nonneg 2 hmp
          omega
  have heq_high : (initState cfg).high = -1 := rfl
  have heq_att : (initState cfg).attempts = 0 := rfl
  constructor
  case fc => rfl
  case cur_nonneg => exact hcur
  case low_lb =>
      cases hfw : cfg.fixedW with
      | some W =>
          rw [initState_low_some hfw]
          have hW := hv.1 W hfw
          omega
      | none =>
          rw [initState_low_none hfw]
  case high_lb => rw [heq_high]
  case low_le =>
      intro hne
      rw [initState_current]
      cases hfw : cfg.fixedW with
      | some W =>
          rw [initState_low_some hfw, initCurrent_some hfw]
          omega
      | none =>
          rw [initState_low_none hfw] at hne
          exact absurd rfl hne
  case cur_le_high => intro hne; rw [heq_high] at hne; exact absurd rfl hne
  case cur_lt_high => intro hne; rw [heq_high] at hne; exact absurd rfl hne
  case parity =>
      intro huni
      have heven := entryCheck_ok_even huni he
      refine ⟨heven, ?_, fun hne => by rw [heq_high] at hne; exact absurd rfl hne⟩
      intro hne
      cases hfw : cfg.fixedW with
      | some W =>
          rw [initState_low_some hfw]
          rcases mult_cases cfg with ⟨-, hm2⟩ | ⟨hfalse, -⟩
          · have hW := hv.1 W hfw
            rw [initCurrent_some hfw, hm2] at heven
            rw [hm2]
            have h1 : Int.tmod (W + 5 * 2) 2 = (W + 5 * 2) % 2 :=
              tmod_two_eq_emod (by omega)
            have h2 : Int.tmod (W - 1 * 2) 2 = (W - 1 * 2) % 2 :=
              tmod_two_eq_emod (by omega)
            rw [h1] at heven
            rw [h2]
            omega
          · rw [huni] at hfalse
            exact absurd hfalse (by simp)
      | none =>
          rw [initState_low_none hfw] at hne
          exact absurd rfl hne
  case fixedPar =>
      intro W hfw huni
      have heven := entryCheck_ok_even huni he
      rcases mult_cases cfg with ⟨-, hm2⟩ | ⟨hfalse, -⟩
      · have hW := hv.1 W hfw
        rw [initCurrent_some hfw, hm2] at heven
        have h1 : Int.tmod (W + 5 * 2) 2 = (W + 5 * 2) % 2 :=
          tmod_two_eq_emod (by omega)
        have h2 : Int.tmod W 2 = W % 2 := tmod_two_eq_emod (by omega)
        rw [h1] at heven
        rw [h2]
        omega
      · rw [huni] at hfalse
        exact absurd hfalse (by simp)
  case fixedProg =>
      intro W hfw hhigh
      refine ⟨1, le_refl 1, ?_, ?_⟩
      · rw [initState_current, initCurrent_some hfw]
        ring
      · rw [initState_current, initCurrent_some hfw]
        omega
  case attempts0 =>
      intro hfw hatt
      exact ⟨initState_low_none hfw, heq_high⟩

/-! ### Decomposition of one loop iteration -/

theorem bool_eq_false_of_ne_true {b : Bool} (h : ¬ b = true) : b = false := by
  cases hx : b
  · rfl
  · exact absurd hx h

theorem bsUpdate_next_cases (cfg : BSConfig) (outc : Bool) (s s' : BSState)
    (hc : 0 ≤ s.current)
    (h : (bsUpdate cfg outc s).res = .next s') :
    ((outc && !s.fcClipped) = true ∧
      s' = bsSuccessState cfg (cfg.usingHint && decide (s.attempts + 1 = 1)) s ∧
      ¬(s.current - s.low ≤ 1 * cfg.mult) ∧ s.current ≠ s.high) ∨
    ((outc && !s.fcClipped) = false ∧ s.high ≠ -1 ∧
      s' = bsFailHighState cfg (cfg.usingHint && decide (s.attempts + 1 = 1)) s ∧
      ¬(s.high - s.current ≤ 1 * cfg.mult)) ∨
    ((outc && !s.fcClipped) = false ∧ s.high = -1 ∧
      (∃ W, cfg.fixedW = some W ∧ s.current < W + 30) ∧
      s' = bsFailFsState cfg s) ∨
    ((outc && !s.fcClipped) = false ∧ s.high = -1 ∧ cfg.fixedW = none ∧
      s' = bsFailGrowState cfg (cfg.usingHint && decide (s.attempts + 1 = 1)) s) := by
  unfold bsUpdate at h
  dsimp only at h
  by_cases hsf : (outc && !s.fcClipped) = true
  · rw [if_pos hsf] at h
    by_cases hA : s.current - s.low ≤ 1 * cfg.mult
    · rw [if_pos hA] at h
      rw [if_pos (show s.current ≠ -1 by omega)] at h
      simp at h
    · rw [if_neg hA] at h
      by_cases hB : s.current = s.high
      · rw [if_pos hB] at h
        rw [if_pos (show s.current ≠ -1 by omega)] at h
        simp at h
      · rw [if_neg hB] at h
        rw [if_neg (show ¬((-1:ℤ) ≠ -1) by simp)] at h
        simp only [StepRes.next.injEq] at h
        exact Or.inl ⟨hsf, h.symm, hA, hB⟩
  · have hsf2 := bool_eq_false_of_ne_true hsf
    rw [if_neg hsf] at h
    by_cases hh : s.high = -1
    · rw [if_neg (show ¬(s.high ≠ -1) by simp [hh])] at h
      cases hfw : cfg.fixedW with
      | some W =>
          rw [hfw] at h
          dsimp only at h
          by_cases hlt : s.current < W + 30
          · rw [if_pos hlt] at h
            simp only [StepRes.next.injEq] at h
            exact Or.inr (Or.inr (Or.inl ⟨hsf2, hh, ⟨W, rfl, hlt⟩, h.symm⟩))
          · rw [if_neg hlt] at h
            simp at h
      | none =>
          rw [hfw] at h
          dsimp only at h
          simp only [StepRes.next.injEq] at h
          exact Or.inr (Or.inr (Or.inr ⟨hsf2, hh, rfl, h.symm⟩))
    · rw [if_pos (show s.high ≠ -1 from hh)] at h
      by_cases hC : s.high - s.current ≤ 1 * cfg.mult
      · rw [if_pos hC] at h
        simp at h
      · rw [if_neg hC] at h
        simp only [StepRes.next.injEq] at h
        exact Or.inr (Or.inl ⟨hsf2, hh, h.symm, hC⟩)

theorem bsUpdate_stop_cases (cfg : BSConfig) (outc : Bool) (s : BSState)
    (f : ℤ) (s' : BSState) (hc : 0 ≤ s.current)
    (h : (bsUpdate cfg outc s).res = .stop f s') :
    ((outc && !s.fcClipped) = true ∧ f = s.current ∧
      s' = bsSuccessState cfg (cfg.usingHint && decide (s.attempts + 1 = 1)) s ∧
      (s.current - s.low ≤ 1 * cfg.mult ∨ s.current = s.high)) ∨
    ((outc && !s.fcClipped) = false ∧ s.high ≠ -1 ∧ f = s.high ∧
      s' = bsFailHighState cfg (cfg.usingHint && decide (s.attempts + 1 = 1)) s ∧
      s.high - s.current ≤ 1 * cfg.mult) := by
  unfold bsUpdate at h
  dsimp only at h
  by_cases hsf : (outc && !s.fcClipped) = true
  · rw [if_pos hsf] at h
    by_cases hA : s.current - s.low ≤ 1 * cfg.mult
    · rw [if_pos hA] at h
      rw [if_pos (show s.current ≠ -1 by omega)] at h
      simp only [StepRes.stop.injEq] at h
      exact Or.inl ⟨hsf, h.1.symm, h.2.symm, Or.inl hA⟩
    · rw [if_neg hA] at h
      by_cases hB : s.current = s.high
      · rw [if_pos hB] at h
        rw [if_pos (show s.current ≠ -1 by omega)] at h
        simp only [StepRes.stop.injEq] at h
        exact Or.inl ⟨hsf, h.1.symm, h.2.symm, Or.inr hB⟩
      · rw [if_neg hB] at h
        rw [if_neg (show ¬((-1:ℤ) ≠ -1) by simp)] at h
        simp at h
  · have hsf2 := bool_eq_false_of_ne_true hsf
    rw [if_neg hsf] at h
    by_cases hh : s.high = -1
    · rw [if_neg (show ¬(s.high ≠ -1) by simp [hh])] at h
      cases hfw : cfg.fixedW with
      | some W =>
          rw [hfw] at h
          dsimp only at h
          split at h <;> simp at h
      | none =>
          rw [hfw] at h
          dsimp only at h
          simp at h
    · rw [if_pos (show s.high ≠ -1 from hh)] at h
      by_cases hC : s.high - s.current ≤ 1 * cfg.mult
      · rw [if_pos hC] at h
        simp only [StepRes.stop.injEq] at h
        exact Or.inr ⟨hsf2, hh, h.1.symm, h.2.symm, hC⟩
      · rw [if_neg hC] at h
        simp at h

theorem bsStep_next_imp {cfg : BSConfig} {outc : Bool} {s s' : BSState}
    (h : (bsStep cfg outc s).res = .next s') :
    (bsUpdate cfg outc s).res = .next s' := by
  unfold bsStep at h
  cases hfw : cfg.fixedW with
  | some W =>
      rw [hfw] at h
      dsimp only at h
      split at h
      · simp at h
      · unfold bsStepAfterGuard at h
        split at h
        · simp at h
        · exact h
  | none =>
      rw [hfw] at h
      dsimp only at h
      split at h
      · simp at h
      · unfold bsStepAfterGuard at h
        split at h
        · simp at h
        · exact h

theorem bsStep_stop_imp {cfg : BSConfig} {outc : Bool} {s : BSState}
    {f : ℤ} {s' : BSState} (h : (bsStep cfg outc s).res = .stop f s') :
    (s.current * 3 < cfg.Fs ∧ f = s.high ∧ s' = s) ∨
    (¬(s.current * 3 < cfg.Fs) ∧ (bsUpdate cfg outc s).res = .stop f s') := by
  have hafter : (bsStepAfterGuard cfg outc s).res = .stop f s' →
      (s.current * 3 < cfg.Fs ∧ f = s.high ∧ s' = s) ∨
      (¬(s.current * 3 < cfg.Fs) ∧
        (bsUpdate cfg outc s).res = .stop f s') := by
    intro h2
    unfold bsStepAfterGuard at h2
    split at h2
    · rename_i hfs
      simp only [StepRes.stop.injEq] at h2
      exact Or.inl ⟨hfs, h2.1.symm, h2.2.symm⟩
    · rename_i hfs
      exact Or.inr ⟨hfs, h2⟩
  unfold bsStep at h
  cases hfw : cfg.fixedW with
  | some W =>
      rw [hfw] at h
      dsimp only at h
      split at h
      · simp at h
      · exact hafter h
  | none =>
      rw [hfw] at h
      dsimp only at h
      split at h
      · simp at h
      · exact hafter h

/-! ### Preservation of the loop invariant -/

theorem hintNow_false_of_low {cfg : BSConfig} {s : BSState} (hi : SInv cfg s)
    (hlow : s.low ≠ -1) :
    (cfg.usingHint && decide (s.attempts + 1 = 1)) = false := by
  cases hx : (cfg.usingHint && decide (s.attempts + 1 = 1))
  · rfl
  · obtain ⟨hu, ha0⟩ := hintNow_imp hx
    obtain ⟨hl, -⟩ := hi.attempts0 (hint_imp_none hu) ha0
    exact absurd hl hlow

theorem hintNow_false_of_high {cfg : BSConfig} {s : BSState} (hi : SInv cfg s)
    (hh : s.high ≠ -1) :
    (cfg.usingHint && decide (s.attempts + 1 = 1)) = false := by
  cases hx : (cfg.usingHint && decide (s.attempts + 1 = 1))
  · rfl
  · obtain ⟨hu, ha0⟩ := hintNow_imp hx
    obtain ⟨-, hh0⟩ := hi.attempts0 (hint_imp_none hu) ha0
    exact absurd hh0 hh

theorem bsUpdate_next_inv (cfg : BSConfig) (hv : ValidCfg cfg) (outc : Bool)
    (s s' : BSState) (hi : SInv cfg s)
    (h : (bsUpdate cfg outc s).res = .next s') : SInv cfg s' := by
  have hm := mult_one_or_two cfg
  have hmpos : 1 ≤ cfg.mult := by rcases hm with h1 | h2 <;> omega
  rcases bsUpdate_next_cases cfg outc s s' hi.cur_nonneg h with
    ⟨hsf, hEq, hA, hB⟩ | ⟨hsf, hh, hEq, hC⟩ |
    ⟨hsf, hh, ⟨W, hfw, hlt⟩, hEq⟩ | ⟨hsf, hh, hfw, hEq⟩
  · -- successful trial, loop continues
    subst hEq
    by_cases hlow : s.low = -1
    · -- no lower bound yet: current = high / scale_factor
      have hstate : bsSuccessState cfg
          (cfg.usingHint && decide (s.attempts + 1 = 1)) s =
          { current := parityAdjust (divScale s.current
              (cfg.usingHint && decide (s.attempts + 1 = 1))) cfg.mult,
            low := s.low, high := s.current, attempts := s.attempts + 1,
            fcClipped := s.fcClipped } := by
        unfold bsSuccessState
        rw [if_neg (by simp [hlow])]
      rw [hstate]
      have hb := halve_le_self hm hi.cur_nonneg
        (cfg.usingHint && decide (s.attempts + 1 = 1))
      have hcn := hi.cur_nonneg
      refine ⟨?_, ?_, ?_, ?_, ?_, ?_, ?_, ?_, ?_, ?_, ?_⟩
      · exact hi.fc
      · exact hb.1
      · exact hi.low_lb
      · dsimp only; omega
      · intro hne; exact absurd hlow hne
      · intro hne; dsimp only; exact hb.2
      · intro hne hne2; exact absurd hlow hne2
      ·
          intro huni
          rcases mult_cases cfg with ⟨-, hm2⟩ | ⟨hfalse, -⟩
          · refine ⟨?_, fun hne => (hi.parity huni).2.1 hne, fun hne => ?_⟩
            · dsimp only
              rw [hm2]
              exact parityAdjust_even_any _
            · dsimp only
              exact (hi.parity huni).1
          · rw [huni] at hfalse; exact absurd hfalse (by simp)
      · exact hi.fixedPar
      ·
          intro W hfw hh2
          dsimp only at hh2
          omega
      ·
          intro hfw hatt
          dsimp only at hatt
          omega
    · -- lower bound known: hint scale is impossible, exact halving
      have hbf := hintNow_false_of_low hi hlow
      have hstate : bsSuccessState cfg
          (cfg.usingHint && decide (s.attempts + 1 = 1)) s =
          { current := parityAdjust (Int.tdiv (s.current + s.low) 2) cfg.mult,
            low := s.low, high := s.current, attempts := s.attempts + 1,
            fcClipped := s.fcClipped } := by
        unfold bsSuccessState
        rw [if_pos hlow, hbf]
        rfl
      rw [hstate]
      have hlnn : 0 ≤ s.low := by have := hi.low_lb; omega
      have hgap : cfg.mult < s.current - s.low := by omega
      have hbet := parity_halve_between hm hlnn hgap
      have hcn := hi.cur_nonneg
      refine ⟨?_, ?_, ?_, ?_, ?_, ?_, ?_, ?_, ?_, ?_, ?_⟩
      · exact hi.fc
      · dsimp only; omega
      · exact hi.low_lb
      · dsimp only; omega
      · intro hne; dsimp only; omega
      · intro hne; dsimp only; omega
      · intro hne hne2; dsimp only; omega
      ·
          intro huni
          rcases mult_cases cfg with ⟨-, hm2⟩ | ⟨hfalse, -⟩
          · refine ⟨?_, fun hne => (hi.parity huni).2.1 hne, fun hne => ?_⟩
            · dsimp only
              rw [hm2]
              exact parityAdjust_even_any _
            · dsimp only
              exact (hi.parity huni).1
          · rw [huni] at hfalse; exact absurd hfalse (by simp)
      · exact hi.fixedPar
      ·
          intro W hfw hh2
          dsimp only at hh2
          omega
      ·
          intro hfw hatt
          dsimp only at hatt
          omega
  · -- failed trial with a known upper bound
    subst hEq
    have hbf := hintNow_false_of_high hi hh
    have hstate : bsFailHighState cfg
        (cfg.usingHint && decide (s.attempts + 1 = 1)) s =
        { current := parityAdjust (Int.tdiv (s.high + s.current) 2) cfg.mult,
          low := s.current, high := s.high, attempts := s.attempts + 1,
          fcClipped := s.fcClipped } := by
      unfold bsFailHighState
      rw [hbf]
      rfl
    rw [hstate]
    have hcn := hi.cur_nonneg
    have hgap : cfg.mult < s.high - s.current := by omega
    have hbet := parity_halve_between hm hcn hgap
    have hhb := hi.high_lb
    refine ⟨?_, ?_, ?_, ?_, ?_, ?_, ?_, ?_, ?_, ?_, ?_⟩
    · exact hi.fc
    · dsimp only; omega
    · dsimp only; omega
    · exact hi.high_lb
    · intro hne; dsimp only; omega
    · intro hne; dsimp only; omega
    · intro hne hne2; dsimp only; omega
    ·
        intro huni
        rcases mult_cases cfg with ⟨-, hm2⟩ | ⟨hfalse, -⟩
        · refine ⟨?_, fun hne => (hi.parity huni).1, fun hne => ?_⟩
          · dsimp only
            rw [hm2]
            exact parityAdjust_even_any _
          · dsimp only
            exact (hi.parity huni).2.2 hne
        · rw [huni] at hfalse; exact absurd hfalse (by simp)
    · exact hi.fixedPar
    ·
        intro W hfw hh2
        dsimp only at hh2
        exact absurd hh2 hh
    ·
        intro hfw hatt
        dsimp only at hatt
        omega
  · -- failed trial, fixed-width sub-search step
    subst hEq
    obtain ⟨k, hk1, hkc, hkb⟩ := hi.fixedProg W hfw hh
    have hWpos := hv.1 W hfw
    have hcn := hi.cur_nonneg
    have hpa : parityAdjust (s.current + 5 * cfg.mult) cfg.mult =
        s.current + 5 * cfg.mult := by
      rcases mult_cases cfg with ⟨huni, hm2⟩ | ⟨-, hm1⟩
      · rw [hm2]
        apply parityAdjust_of_even
        have hce := (hi.parity huni).1
        have h1 : Int.tmod s.current 2 = s.current % 2 := tmod_two_eq_emod hcn
        have h2 : Int.tmod (s.current + 5 * 2) 2 = (s.current + 5 * 2) % 2 :=
          tmod_two_eq_emod (by omega)
        rw [h1] at hce
        rw [h2]
        omega
      · rw [hm1, parityAdjust_one]
    have hstate : bsFailFsState cfg s =
        { current := s.current + 5 * cfg.mult,
          low := s.current, high := s.high, attempts := s.attempts + 1,
          fcClipped := s.fcClipped } := by
      unfold bsFailFsState
      rw [hpa]
    rw [hstate]
    refine ⟨?_, ?_, ?_, ?_, ?_, ?_, ?_, ?_, ?_, ?_, ?_⟩
    · exact hi.fc
    · dsimp only; omega
    · dsimp only; omega
    · exact hi.high_lb
    · intro hne; dsimp only; omega
    ·
        intro hne
        dsimp only at hne
        exact absurd hh hne
    ·
        intro hne hne2
        dsimp only at hne
        exact absurd hh hne
    ·
        intro huni
        rcases mult_cases cfg with ⟨-, hm2⟩ | ⟨hfalse, -⟩
        · have hce := (hi.parity huni).1
          have h1 : Int.tmod s.current 2 = s.current % 2 := tmod_two_eq_emod hcn
          have h2 : Int.tmod (s.current + 5 * cfg.mult) 2 =
              (s.current + 5 * cfg.mult) % 2 := tmod_two_eq_emod (by omega)
          rw [h1] at hce
          refine ⟨?_, fun hne => ?_, fun hne => ?_⟩
          · dsimp only
            rw [h2, hm2]
            omega
          · dsimp only
            rw [h1]
            exact hce
          · dsimp only at hne
            exact absurd hh hne
        · rw [huni] at hfalse; exact absurd hfalse (by simp)
    · exact hi.fixedPar
    ·
        intro W2 hfw2 hh2
        have hW2 : W2 = W := by
          rw [hfw] at hfw2
          injection hfw2 with hinj
          exact hinj.symm
        subst hW2
        refine ⟨k + 1, by omega, ?_, ?_⟩
        · dsimp only
          rw [hkc]
          ring
        · dsimp only
          rcases hm with hm1 | hm2
          · rw [hm1] at hkc ⊢
            omega
          · rw [hm2] at hkc ⊢
            omega
    ·
        intro hnone hatt
        rw [hfw] at hnone
        exact absurd hnone (by simp)
  · -- failed trial, unconstrained growth step
    subst hEq
    have hcn := hi.cur_nonneg
    have hgrow := grow_ge_self hm hcn
      (cfg.usingHint && decide (s.attempts + 1 = 1))
    refine ⟨?_, ?_, ?_, ?_, ?_, ?_, ?_, ?_, ?_, ?_, ?_⟩
    · exact hi.fc
    ·
        show 0 ≤ parityAdjust (mulScale s.current
          (cfg.usingHint && decide (s.attempts + 1 = 1))) cfg.mult
        exact hgrow.1
    · show -1 ≤ s.current; omega
    · exact hi.high_lb
    ·
        intro hne
        show s.current ≤ parityAdjust (mulScale s.current
          (cfg.usingHint && decide (s.attempts + 1 = 1))) cfg.mult
        exact hgrow.2
    ·
        intro hne
        exact absurd hh hne
    ·
        intro hne hne2
        exact absurd hh hne
    ·
        intro huni
        rcases mult_cases cfg with ⟨-, hm2⟩ | ⟨hfalse, -⟩
        · refine ⟨?_, fun hne => (hi.parity huni).1, fun hne => absurd hh hne⟩
          show Int.tmod (parityAdjust (mulScale s.current
            (cfg.usingHint && decide (s.attempts + 1 = 1))) cfg.mult) 2 = 0
          rw [hm2]
          exact parityAdjust_even_any _
        · rw [huni] at hfalse; exact absurd hfalse (by simp)
    · exact hi.fixedPar
    ·
        intro W2 hfw2 hh2
        rw [hfw] at hfw2
        exact absurd hfw2 (by simp)
    ·
        intro hnone hatt
        dsimp only [bsFailGrowState] at hatt
        omega

theorem reachable_inv {cfg : BSConfig} {oracle : ℕ → Bool} {s : BSState}
    (hv : ValidCfg cfg) (hr : Reachable cfg oracle s) : SInv cfg s := by
  induction hr with
  | init he => exact initState_inv cfg hv he
  | step hr2 hstep ih =>
      exact bsUpdate_next_inv cfg hv _ _ _ ih (bsStep_next_imp hstep)

/-! ### Per-step facts: Fc_clipped, probes, parity -/

theorem bsUpdate_next_fc {cfg : BSConfig} {outc : Bool} {s s' : BSState}
    (h : (bsUpdate cfg outc s).res = .next s') :
    s'.fcClipped = s.fcClipped := by
  unfold bsUpdate at h
  dsimp only at h
  split at h
  · split at h <;> (try split at h) <;> (try split at h) <;>
      first
        | (simp only [StepRes.next.injEq] at h; subst h; rfl)
        | simp at h
  · split at h
    · split at h
      · simp at h
      · simp only [StepRes.next.injEq] at h
        subst h
        rfl
    · split at h
      · split at h
        · simp only [StepRes.next.injEq] at h
          subst h
          rfl
        · simp at h
      · simp only [StepRes.next.injEq] at h
        subst h
        rfl

theorem bsUpdate_stop_fc {cfg : BSConfig} {outc : Bool} {s : BSState}
    {f : ℤ} {s' : BSState} (h : (bsUpdate cfg outc s).res = .stop f s') :
    s'.fcClipped = s.fcClipped := by
  unfold bsUpdate at h
  dsimp only at h
  split at h
  · split at h <;> (try split at h) <;> (try split at h) <;>
      first
        | (simp only [StepRes.stop.injEq] at h; rw [← h.2]; rfl)
        | simp at h
  · split at h
    · split at h
      · simp only [StepRes.stop.injEq] at h
        rw [← h.2]
        rfl
      · simp at h
    · split at h
      · split at h <;> simp at h
      · simp at h

theorem bsUpdate_next_high {cfg : BSConfig} {outc : Bool} {s s' : BSState}
    (h : (bsUpdate cfg outc s).res = .next s') :
    s'.high = s.current ∨ s'.high = s.high := by
  unfold bsUpdate at h
  dsimp only at h
  split at h
  · split at h <;> (try split at h) <;> (try split at h) <;>
      first
        | (simp only [StepRes.next.injEq] at h; subst h; exact Or.inl rfl)
        | simp at h
  · split at h
    · split at h
      · simp at h
      · simp only [StepRes.next.injEq] at h
        subst h
        exact Or.inr rfl
    · split at h
      · split at h
        · simp only [StepRes.next.injEq] at h
          subst h
          exact Or.inr rfl
        · simp at h
      · simp only [StepRes.next.injEq] at h
        subst h
        exact Or.inr rfl

theorem bsUpdate_stop_val {cfg : BSConfig} {outc : Bool} {s : BSState}
    {f : ℤ} {s' : BSState} (h : (bsUpdate cfg outc s).res = .stop f s') :
    f = s.current ∨ f = s.high := by
  unfold bsUpdate at h
  dsimp only at h
  split at h
  · split at h <;> (try split at h) <;> (try split at h) <;>
      first
        | (simp only [StepRes.stop.injEq] at h; exact Or.inl h.1.symm)
        | omega
        | simp at h
  · split at h
    · split at h
      · simp only [StepRes.stop.injEq] at h
        exact Or.inr h.1.symm
      · simp at h
    · split at h
      · split at h <;> simp at h
      · simp at h

theorem bsUpdate_next_cur_even {cfg : BSConfig} (huni : cfg.uni = true)
    {outc : Bool} {s s' : BSState}
    (h : (bsUpdate cfg outc s).res = .next s') :
    Int.tmod s'.current 2 = 0 := by
  have hm2 : cfg.mult = 2 := by
    rcases mult_cases cfg with ⟨-, h2⟩ | ⟨hf, -⟩
    · exact h2
    · rw [huni] at hf; exact absurd hf (by simp)
  unfold bsUpdate at h
  dsimp only at h
  split at h
  · split at h <;> (try split at h) <;> (try split at h) <;>
      first
        | (simp only [StepRes.next.injEq] at h; subst h;
           dsimp only [bsSuccessState]; rw [hm2]; exact parityAdjust_even_any _)
        | simp at h
  · split at h
    · split at h
      · simp at h
      · simp only [StepRes.next.injEq] at h
        subst h
        dsimp only [bsFailHighState]
        rw [hm2]
        exact parityAdjust_even_any _
    · split at h
      · split at h
        · simp only [StepRes.next.injEq] at h
          subst h
          dsimp only [bsFailFsState]
          rw [hm2]
          exact parityAdjust_even_any _
        · simp at h
      · simp only [StepRes.next.injEq] at h
        subst h
        dsimp only [bsFailGrowState]
        rw [hm2]
        exact parityAdjust_even_any _

theorem bsUpdate_probed (cfg : BSConfig) (outc : Bool) (s : BSState) :
    (bsUpdate cfg outc s).probed = some s.current := by
  unfold bsUpdate
  dsimp only
  split
  · split <;> (try split) <;> (try split) <;> rfl
  · split
    · split <;> rfl
    · split
      · split <;> rfl
      · rfl

theorem bsUpdate_rejected (cfg : BSConfig) (outc : Bool) (s : BSState)
    (hfc : s.fcClipped = false) : (bsUpdate cfg outc s).rejected = false := by
  unfold bsUpdate
  dsimp only
  split
  · split <;> (try split) <;> (try split) <;> rfl
  · split
    · split <;> simp [hfc]
    · split
      · split <;> simp [hfc]
      · simp [hfc]

theorem bsStep_probed_cases (cfg : BSConfig) (outc : Bool) (s : BSState) :
    (bsStep cfg outc s).probed = none ∨
    bsStep cfg outc s = bsUpdate cfg outc s := by
  unfold bsStep
  cases hfw : cfg.fixedW with
  | some W =>
      dsimp only
      split
      · exact Or.inl rfl
      · unfold bsStepAfterGuard
        split
        · exact Or.inl rfl
        · exact Or.inr rfl
  | none =>
      dsimp only
      split
      · exact Or.inl rfl
      · unfold bsStepAfterGuard
        split
        · exact Or.inl rfl
        · exact Or.inr rfl

theorem bsStep_rejected_false (cfg : BSConfig) (outc : Bool) (s : BSState)
    (hfc : s.fcClipped = false) : (bsStep cfg outc s).rejected = false := by
  unfold bsStep
  cases hfw : cfg.fixedW with
  | some W =>
      dsimp only
      split
      · rfl
      · unfold bsStepAfterGuard
        split
        · rfl
        · exact bsUpdate_rejected cfg outc s hfc
  | none =>
      dsimp only
      split
      · rfl
      · unfold bsStepAfterGuard
        split
        · rfl
        · exact bsUpdate_rejected cfg outc s hfc

theorem bsUpdate_true_accept (cfg : BSConfig) (s : BSState)
    (hfc : s.fcClipped = false) :
    ∃ f s', ((bsUpdate cfg true s).res = .stop f s' ∨
      (bsUpdate cfg true s).res = .next s') ∧ s'.high = s.current := by
  unfold bsUpdate
  dsimp only
  have hcond : (true && !s.fcClipped) = true := by rw [hfc]; rfl
  rw [if_pos hcond]
  by_cases hfin : (if s.current - s.low ≤ 1 * cfg.mult then s.current
      else if s.current = s.high then s.current else -1) ≠ -1
  · rw [if_pos hfin]
    exact ⟨_, _, Or.inl rfl, rfl⟩
  · rw [if_neg hfin]
    exact ⟨0, _, Or.inr rfl, rfl⟩

/-! ### C5: the fixed-width `Wneed = f(Fs)` sub-search -/

theorem failFs_current (cfg : BSConfig) (s : BSState) (hcn : 0 ≤ s.current)
    (hpar : cfg.uni = true → Int.tmod s.current 2 = 0) :
    (bsFailFsState cfg s).current = s.current + 5 * cfg.mult := by
  unfold bsFailFsState
  dsimp only
  rcases mult_cases cfg with ⟨huni, hm2⟩ | ⟨-, hm1⟩
  · rw [hm2]
    apply parityAdjust_of_even
    have hce := hpar huni
    have h1 : Int.tmod s.current 2 = s.current % 2 := tmod_two_eq_emod hcn
    have h2 : Int.tmod (s.current + 5 * 2) 2 = (s.current + 5 * 2) % 2 :=
      tmod_two_eq_emod (by omega)
    rw [h1] at hce
    rw [h2]
    omega
  · rw [hm1, parityAdjust_one]

/-- **C5.** In fixed-width mode (`fixed_channel_width = W`) while `high` is
    still `-1`, a failed trial either continues with the next width
    `current + 5 * udsd_multiplier` (equivalently `low + 5 * mult`, since the
    failure first sets `low = current`), recording `low = current` and
    keeping the width within `W + 30` — or aborts fatally, and it aborts
    exactly when the overflow and `Fs` guards pass and that next width would
    exceed `W + 30`. -/
theorem c5_fixed_subsearch (cfg : BSConfig) (oracle : ℕ → Bool) (s : BSState)
    (W : ℤ) (hv : ValidCfg cfg) (hr : Reachable cfg oracle s)
    (hfw : cfg.fixedW = some W) (hh : s.high = -1) :
    ((bsStep cfg false s).res = .fatal .fsSearchTooLarge ↔
      ¬(W * 4 < s.current) ∧ ¬(s.current * 3 < cfg.Fs) ∧
      W + 30 < s.current + 5 * cfg.mult) ∧
    (∀ s', (bsStep cfg false s).res = .next s' →
      s'.low = s.current ∧ s'.current = s.current + 5 * cfg.mult ∧
      s'.current ≤ W + 30) := by
  have hi := reachable_inv hv hr
  obtain ⟨k, hk1, hkc, hkle⟩ := hi.fixedProg W hfw hh
  have hm := mult_one_or_two cfg
  constructor
  · rw [bsStep_fatal_iff]
    constructor
    · rintro (⟨W2, hW2, hglt, he⟩ | ⟨hn, -, -⟩ | ⟨W2, hW2, hg, hfs, -, -, hle, -⟩)
      · exact VprErr.noConfusion he
      · rw [hfw] at hn; exact Option.noConfusion hn
      · have hWW : W2 = W := by
          rw [hfw] at hW2; injection hW2 with h2; exact h2.symm
        subst hWW
        refine ⟨hg, hfs, ?_⟩
        rcases hm with h1 | h1 <;> (rw [h1]; omega)
    · rintro ⟨hg, hfs, hlt⟩
      refine Or.inr (Or.inr ⟨W, hfw, hg, hfs, by simp, hh, ?_, rfl⟩)
      rcases hm with h1 | h1 <;> (rw [h1] at hkc hlt; omega)
  · intro s' hnext
    have hup := bsStep_next_imp hnext
    rcases bsUpdate_next_cases cfg false s s' hi.cur_nonneg hup with
      ⟨habs, -, -, -⟩ | ⟨-, hne, -, -⟩ | ⟨-, -, ⟨W2, hW2, hlt⟩, hs'⟩ | ⟨-, -, hfn, -⟩
    · exact absurd habs (by simp)
    · exact absurd hh hne
    · have hWW : W2 = W := by
        rw [hfw] at hW2; injection hW2 with h2; exact h2.symm
      subst hWW
      subst hs'
      have hcur := failFs_current cfg s hi.cur_nonneg (fun hu => (hi.parity hu).1)
      refine ⟨rfl, hcur, ?_⟩
      rw [hcur]
      rcases hm with h1 | h1 <;> (rw [h1] at hkc ⊢; omega)
    · rw [hfw] at hfn; exact Option.noConfusion hfn

theorem c5_fixed_subsearch_witness :
    (((bsStep ⟨false, some 40, 3, 0, 1, false⟩ false
        (initState ⟨false, some 40, 3, 0, 1, false⟩)).res =
          .fatal .fsSearchTooLarge ↔
      ¬((40:ℤ) * 4 < (initState ⟨false, some 40, 3, 0, 1, false⟩).current) ∧
      ¬((initState ⟨false, some 40, 3, 0, 1, false⟩).current * 3 <
          (⟨false, some 40, 3, 0, 1, false⟩ : BSConfig).Fs) ∧
      (40:ℤ) + 30 < (initState ⟨false, some 40, 3, 0, 1, false⟩).current +
        5 * (⟨false, some 40, 3, 0, 1, false⟩ : BSConfig).mult) ∧
    (∀ s', (bsStep ⟨false, some 40, 3, 0, 1, false⟩ false
        (initState ⟨false, some 40, 3, 0, 1, false⟩)).res = .next s' →
      s'.low = (initState ⟨false, some 40, 3, 0, 1, false⟩).current ∧
      s'.current = (initState ⟨false, some 40, 3, 0, 1, false⟩).current +
        5 * (⟨false, some 40, 3, 0, 1, false⟩ : BSConfig).mult ∧
      s'.current ≤ (40:ℤ) + 30)) :=
  c5_fixed_subsearch ⟨false, some 40, 3, 0, 1, false⟩ (fun _ => false)
    (initState ⟨false, some 40, 3, 0, 1, false⟩) 40
    ⟨fun W h => by injection h with h2; omega, by norm_num⟩
    (Reachable.init (by rfl)) rfl rfl

/-! ### C4: bounds on an assigned `final` when both bounds are known -/

/-- The configuration of the C4 scenario: unidirectional, no fixed width,
    `Fs = 3`, no hint, a block needing 4 pins. -/
def c4_cfg : BSConfig :=
  { uni := true, fixedW := none, Fs := 3, hint := 0, maxPins := 4,
    verify := false }

/-- The stochastic outcome stream of the C4 scenario: the first two
    `try_route` calls succeed, every later one fails — in particular the
    router succeeds and then fails at the same width 2. -/
def c4_oracle : ℕ → Bool := fun n => decide (n < 2)

/-- **C4 (counterexample to `low < final`).** After two successful trials
    (widths 4 and 2) the state is `current = 2, low = -1, high = 2`; the
    third trial fails at width 2, the failure branch sets `low = current = 2`
    and, since `high - low = 0 ≤ 1 * mult`, assigns `final = high = 2`.  At
    that moment both bounds are known (`low = 2 ≠ -1`, `high = 2 ≠ -1`) but
    `low < final` is false: `low = final = high = 2`. -/
theorem c4_low_lt_final_counterexample :
    Reachable c4_cfg c4_oracle ⟨2, -1, 2, 2, false⟩ ∧
    (bsStep c4_cfg (c4_oracle 2) ⟨2, -1, 2, 2, false⟩).res =
      .stop 2 ⟨2, 2, 2, 3, false⟩ ∧
    ((2:ℤ) ≠ -1 ∧ (2:ℤ) ≠ -1) ∧ ¬((2:ℤ) < 2) := by
  refine ⟨?_, by decide, by decide, by decide⟩
  have h0 : Reachable c4_cfg c4_oracle (initState c4_cfg) :=
    Reachable.init (by rfl)
  have h1 : Reachable c4_cfg c4_oracle ⟨2, -1, 4, 1, false⟩ :=
    Reachable.step h0 (by decide)
  exact Reachable.step h1 (by decide)

/-- **C4 (amended).** Whenever a reachable controller iteration assigns
    `final` (a `stop` result) and both bounds of the resulting state are
    known, `low ≤ final ≤ high` holds (equality is possible, so the spec's
    strict `low < final` is too strong), and the assignment happens only
    when `high - low` is within one parity step (`≤ 1 * mult`) or the
    `3 * current < Fs` floor check triggered. -/
theorem c4_final_bounds (cfg : BSConfig) (oracle : ℕ → Bool) (s : BSState)
    (f : ℤ) (s' : BSState) (hv : ValidCfg cfg) (hr : Reachable cfg oracle s)
    (hstop : (bsStep cfg (oracle s.attempts) s).res = .stop f s')
    (hlow : s'.low ≠ -1) (hhigh : s'.high ≠ -1) :
    s'.low ≤ f ∧ f ≤ s'.high ∧
    (s'.high - s'.low ≤ 1 * cfg.mult ∨ s.current * 3 < cfg.Fs) := by
  have hi := reachable_inv hv hr
  rcases bsStep_stop_imp hstop with ⟨hfs, hf, hs⟩ | ⟨-, hupd⟩
  · subst hs
    subst hf
    refine ⟨?_, le_refl _, Or.inr hfs⟩
    have h1 := hi.low_le hlow
    have h2 := hi.cur_le_high hhigh
    omega
  · rcases bsUpdate_stop_cases cfg (oracle s.attempts) s f s' hi.cur_nonneg hupd
      with ⟨-, hf, hs, hcond⟩ | ⟨-, hne, hf, hs, hgap⟩
    · subst hs
      subst hf
      have hlow' : s.low ≠ -1 := hlow
      rcases hcond with hA | hB
      · refine ⟨hi.low_le hlow', ?_, Or.inl ?_⟩
        · show s.current ≤ s.current
          exact le_refl _
        · show s.current - s.low ≤ 1 * cfg.mult
          exact hA
      · exfalso
        have hhne : s.high ≠ -1 := by
          have := hi.cur_nonneg
          omega
        have := hi.cur_lt_high hhne hlow'
        omega
    · subst hs
      subst hf
      refine ⟨?_, ?_, Or.inl ?_⟩
      · show s.current ≤ s.high
        exact hi.cur_le_high hne
      · show s.high ≤ s.high
        exact le_refl _
      · show s.high - s.current ≤ 1 * cfg.mult
        exact hgap

theorem c4_final_bounds_witness :
    (⟨2, 2, 2, 3, false⟩ : BSState).low ≤ 2 ∧
    (2:ℤ) ≤ (⟨2, 2, 2, 3, false⟩ : BSState).high ∧
    ((⟨2, 2, 2, 3, false⟩ : BSState).high - (⟨2, 2, 2, 3, false⟩ : BSState).low
        ≤ 1 * c4_cfg.mult ∨
      (⟨2, -1, 2, 2, false⟩ : BSState).current * 3 < c4_cfg.Fs) :=
  c4_final_bounds c4_cfg c4_oracle ⟨2, -1, 2, 2, false⟩ 2 ⟨2, 2, 2, 3, false⟩
    ⟨fun W h => Option.noConfusion h, by norm_num [c4_cfg]⟩
    (by
      have h0 : Reachable c4_cfg c4_oracle (initState c4_cfg) :=
        Reachable.init (by rfl)
      have h1 : Reachable c4_cfg c4_oracle ⟨2, -1, 4, 1, false⟩ :=
        Reachable.step h0 (by decide)
      exact Reachable.step h1 (by decide))
    (by decide) (by decide) (by decide)

/-! ### C3: evenness of every probed width under unidirectional routing -/

theorem tmod_two_sub_two {x : ℤ} (h : Int.tmod x 2 = 0) :
    Int.tmod (x - 2) 2 = 0 := by
  have hd := Int.tmod_def x 2
  have hx : x = 2 * Int.tdiv x 2 := by omega
  have hx2 : x - 2 = 2 * (Int.tdiv x 2 - 1) := by omega
  rw [hx2]
  exact Int.mul_tmod_right 2 _

theorem mem_probe_match {o : StepOut} {w : ℤ}
    (hw : w ∈ (match o.probed with
               | some w2 => [w2]
               | none => ([] : List ℤ))) :
    o.probed = some w := by
  cases hp : o.probed with
  | none => rw [hp] at hw; simp at hw
  | some w2 =>
      rw [hp] at hw
      simp at hw
      rw [hw]

theorem verLoop_probes_even (cfg : BSConfig) (huni : cfg.uni = true)
    (oracle : ℕ → Bool) :
    ∀ fuel (s : VerState), Int.tmod s.current 2 = 0 →
      ∀ w ∈ (verLoop cfg oracle fuel s).1, Int.tmod w 2 = 0 := by
  intro fuel
  induction fuel with
  | zero => intro s h w hw; simp [verLoop] at hw
  | succ n ih =>
      intro s h w hw
      simp only [verLoop] at hw
      split at hw
      · split at hw
        · simp at hw
        · split at hw
          · simp at hw
          · simp only [List.mem_cons] at hw
            rcases hw with hw | hw
            · rw [hw]; exact h
            · refine ih (verNext cfg (oracle s.attempts) s) ?_ w hw
              show Int.tmod (s.current - (if cfg.uni then 2 else 1)) 2 = 0
              rw [huni]
              rw [if_pos rfl]
              exact tmod_two_sub_two h
      · simp at hw

theorem searchLoop_fin_fc (cfg : BSConfig) (oracle : ℕ → Bool) :
    ∀ fuel (s : BSState) (f : ℤ) (s2 : BSState),
      (searchLoop cfg oracle fuel s).2 = .finished f s2 →
      s2.fcClipped = s.fcClipped := by
  intro fuel
  induction fuel with
  | zero => intro s f s2 h; simp [searchLoop] at h
  | succ n ih =>
      intro s f s2 h
      simp only [searchLoop] at h
      cases hres : (bsStep cfg (oracle s.attempts) s).res with
      | fatal e =>
          rw [hres] at h
          simp at h
      | stop f2 s3 =>
          rw [hres] at h
          dsimp only at h
          simp only [LoopRes.finished.injEq] at h
          rw [← h.2]
          rcases bsStep_stop_imp hres with ⟨-, -, hs⟩ | ⟨-, hupd⟩
          · rw [hs]
          · exact bsUpdate_stop_fc hupd
      | next s3 =>
          rw [hres] at h
          dsimp only at h
          have h3 := ih s3 f s2 h
          rw [h3]
          exact bsUpdate_next_fc (bsStep_next_imp hres)

theorem searchLoop_even (cfg : BSConfig) (huni : cfg.uni = true)
    (oracle : ℕ → Bool) :
    ∀ fuel (s : BSState), Int.tmod s.current 2 = 0 →
      (s.high = -1 ∨ Int.tmod s.high 2 = 0) →
      (∀ w ∈ (searchLoop cfg oracle fuel s).1, Int.tmod w 2 = 0) ∧
      (∀ f s2, (searchLoop cfg oracle fuel s).2 = .finished f s2 →
        f = -1 ∨ Int.tmod f 2 = 0) := by
  intro fuel
  induction fuel with
  | zero =>
      intro s h1 h2
      exact ⟨fun w hw => by simp [searchLoop] at hw,
             fun f s2 hf => by simp [searchLoop] at hf⟩
  | succ n ih =>
      intro s h1 h2
      have hprobes : ∀ w, (bsStep cfg (oracle s.attempts) s).probed = some w →
          Int.tmod w 2 = 0 := by
        intro w hwp
        rcases bsStep_probed_cases cfg (oracle s.attempts) s with hn | heq
        · rw [hn] at hwp; exact Option.noConfusion hwp
        · rw [heq, bsUpdate_probed] at hwp
          injection hwp with hwp
          rw [← hwp]
          exact h1
      have hnextinv : ∀ s3, (bsStep cfg (oracle s.attempts) s).res = .next s3 →
          Int.tmod s3.current 2 = 0 ∧
          (s3.high = -1 ∨ Int.tmod s3.high 2 = 0) := by
        intro s3 hres
        refine ⟨bsUpdate_next_cur_even huni (bsStep_next_imp hres), ?_⟩
        rcases bsUpdate_next_high (bsStep_next_imp hres) with hh | hh
        · right; rw [hh]; exact h1
        · rw [hh]; exact h2
      constructor
      · intro w hw
        simp only [searchLoop] at hw
        cases hres : (bsStep cfg (oracle s.attempts) s).res with
        | fatal e =>
            rw [hres] at hw
            dsimp only at hw
            exact hprobes w (mem_probe_match hw)
        | stop f2 s3 =>
            rw [hres] at hw
            dsimp only at hw
            exact hprobes w (mem_probe_match hw)
        | next s3 =>
            rw [hres] at hw
            dsimp only at hw
            rw [List.mem_append] at hw
            rcases hw with hw | hw
            · exact hprobes w (mem_probe_match hw)
            · obtain ⟨hc3, hh3⟩ := hnextinv s3 hres
              exact (ih s3 hc3 hh3).1 w hw
      · intro f s2 hf
        simp only [searchLoop] at hf
        cases hres : (bsStep cfg (oracle s.attempts) s).res with
        | fatal e =>
            rw [hres] at hf
            simp at hf
        | stop f2 s3 =>
            rw [hres] at hf
            dsimp only at hf
            simp only [LoopRes.finished.injEq] at hf
            rw [← hf.1]
            rcases bsStep_stop_imp hres with ⟨-, hfh, -⟩ | ⟨-, hupd⟩
            · rw [hfh]
              exact h2
            · rcases bsUpdate_stop_val hupd with hfc | hfh
              · right; rw [hfc]; exact h1
              · rw [hfh]
                exact h2
        | next s3 =>
            rw [hres] at hf
            dsimp only at hf
            obtain ⟨hc3, hh3⟩ := hnextinv s3 hres
            exact (ih s3 hc3 hh3).2 f s2 hf

/-- **C3.** Under unidirectional routing every channel width passed to
    `try_route` — by the binary-search controller and by the verification
    pass alike — is even, and an odd initial `current` makes the run abort
    with the `odd chan width` error before any trial runs. -/
theorem c3_uni_even_probes (cfg : BSConfig) (huni : cfg.uni = true)
    (oracle : ℕ → Bool) (cFuel vFuel : ℕ) :
    (∀ w ∈ (binary_search cfg oracle cFuel vFuel).probes,
        Int.tmod w 2 = 0) ∧
    (Int.tmod (initCurrent cfg) 2 ≠ 0 →
      binary_search cfg oracle cFuel vFuel = ⟨[], .fatal .oddChanWidth, false⟩) := by
  constructor
  · intro w hw
    unfold binary_search at hw
    cases he : entryCheck cfg with
    | error e => rw [he] at hw; simp at hw
    | ok u =>
        cases u
        rw [he] at hw
        dsimp only at hw
        have hinit : Int.tmod (initState cfg).current 2 = 0 :=
          entryCheck_ok_even huni he
        have hse := searchLoop_even cfg huni oracle cFuel (initState cfg)
          hinit (Or.inl rfl)
        rcases hsl : searchLoop cfg oracle cFuel (initState cfg) with ⟨ps, r⟩
        rw [hsl] at hw
        cases r with
        | fatal e =>
            dsimp only at hw
            exact hse.1 w (by rw [hsl]; exact hw)
        | outOfFuel s3 =>
            dsimp only at hw
            exact hse.1 w (by rw [hsl]; exact hw)
        | finished f s2 =>
            dsimp only at hw
            split at hw
            · dsimp only at hw
              rw [List.mem_append] at hw
              rcases hw with hw | hw
              · exact hse.1 w (by rw [hsl]; exact hw)
              · rcases hse.2 f s2 (by rw [hsl]) with hf1 | hf2
                · rw [hf1] at hw
                  rw [verLoop_below_one cfg oracle vFuel _
                    (by norm_num [verInit])] at hw
                  simp at hw
                · exact verLoop_probes_even cfg huni oracle vFuel
                    (verInit f s2.attempts s2.fcClipped)
                    (show Int.tmod (f - 2) 2 = 0 from tmod_two_sub_two hf2)
                    w hw
            · dsimp only at hw
              exact hse.1 w (by rw [hsl]; exact hw)
  · intro hodd
    unfold binary_search
    have he : entryCheck cfg = .error .oddChanWidth := by
      rw [entryCheck_error_iff]
      exact Or.inl ⟨huni, hodd, rfl⟩
    rw [he]

theorem c3_uni_even_probes_witness :
    (∀ w ∈ (binary_search ⟨true, none, 3, 0, 4, true⟩
        (fun _ => false) 5 5).probes, Int.tmod w 2 = 0) ∧
    (Int.tmod (initCurrent ⟨true, none, 3, 0, 4, true⟩) 2 ≠ 0 →
      binary_search ⟨true, none, 3, 0, 4, true⟩ (fun _ => false) 5 5 =
        ⟨[], .fatal .oddChanWidth, false⟩) :=
  c3_uni_even_probes ⟨true, none, 3, 0, 4, true⟩ rfl (fun _ => false) 5 5

/-! ### C10: `Fc_clipped` is never set -/

theorem reachable_fc {cfg : BSConfig} {oracle : ℕ → Bool} {s : BSState}
    (hr : Reachable cfg oracle s) : s.fcClipped = false := by
  induction hr with
  | init he => rfl
  | step hr2 hstep ih =>
      rw [bsUpdate_next_fc (bsStep_next_imp hstep)]
      exact ih

theorem verLoop_fc (cfg : BSConfig) (oracle : ℕ → Bool) :
    ∀ fuel (s : VerState),
      (verLoop cfg oracle fuel s).2.fcClipped = s.fcClipped := by
  intro fuel
  induction fuel with
  | zero => intro s; rfl
  | succ n ih =>
      intro s
      simp only [verLoop]
      split
      · split
        · rfl
        · split
          · rfl
          · dsimp only
            rw [ih (verNext cfg (oracle s.attempts) s)]
            rfl
      · rfl

theorem binary_search_clipWarning (cfg : BSConfig) (oracle : ℕ → Bool)
    (cFuel vFuel : ℕ) :
    (binary_search cfg oracle cFuel vFuel).clipWarning = false := by
  unfold binary_search
  cases he : entryCheck cfg with
  | error e => rfl
  | ok u =>
      cases u
      dsimp only
      rcases hsl : searchLoop cfg oracle cFuel (initState cfg) with ⟨ps, r⟩
      cases r with
      | fatal e => rfl
      | outOfFuel s3 => rfl
      | finished f s2 =>
          dsimp only
          have hfc2 : s2.fcClipped = false :=
            searchLoop_fin_fc cfg oracle cFuel (initState cfg) f s2
              (by rw [hsl])
          split
          · dsimp only
            rw [verLoop_fc cfg oracle vFuel
              (verInit f s2.attempts s2.fcClipped)]
            exact hfc2
          · exact hfc2

/-- **C10.** On every reachable controller state `Fc_clipped` is still
    `false` (it is initialized `false` and no step sets it): the
    `Routing rejected, Fc_output was too high` branch never runs
    (`rejected = false` for every outcome), every `try_route` success is
    accepted as a success — the iteration that probes `current` with a
    successful outcome narrows the bounds with `high = current` — and the
    closing `Fc_clipped` warning of the whole run never fires. -/
theorem c10_fc_clipped_never (cfg : BSConfig) (oracle : ℕ → Bool)
    (s : BSState) (hr : Reachable cfg oracle s) :
    s.fcClipped = false ∧
    (∀ outc, (bsStep cfg outc s).rejected = false) ∧
    (∀ w, (bsStep cfg true s).probed = some w → w = s.current ∧
      ∃ f s', ((bsStep cfg true s).res = .stop f s' ∨
        (bsStep cfg true s).res = .next s') ∧ s'.high = s.current) ∧
    (∀ cFuel vFuel,
      (binary_search cfg oracle cFuel vFuel).clipWarning = false) := by
  have hfc := reachable_fc hr
  refine ⟨hfc, fun outc => bsStep_rejected_false cfg outc s hfc, ?_,
    fun cF vF => binary_search_clipWarning cfg oracle cF vF⟩
  intro w hw
  rcases bsStep_probed_cases cfg true s with hn | heq
  · rw [hn] at hw
    exact Option.noConfusion hw
  · constructor
    · rw [heq, bsUpdate_probed] at hw
      injection hw with hw
      exact hw.symm
    · rw [heq]
      exact bsUpdate_true_accept cfg s hfc

theorem c10_fc_clipped_never_witness :
    (initState ⟨true, none, 3, 0, 4, false⟩).fcClipped = false ∧
    (∀ outc, (bsStep ⟨true, none, 3, 0, 4, false⟩ outc
        (initState ⟨true, none, 3, 0, 4, false⟩)).rejected = false) ∧
    (∀ w, (bsStep ⟨true, none, 3, 0, 4, false⟩ true
        (initState ⟨true, none, 3, 0, 4, false⟩)).probed = some w →
      w = (initState ⟨true, none, 3, 0, 4, false⟩).current ∧
      ∃ f s', ((bsStep ⟨true, none, 3, 0, 4, false⟩ true
          (initState ⟨true, none, 3, 0, 4, false⟩)).res = .stop f s' ∨
        (bsStep ⟨true, none, 3, 0, 4, false⟩ true
          (initState ⟨true, none, 3, 0, 4, false⟩)).res = .next s') ∧
        s'.high = (initState ⟨true, none, 3, 0, 4, false⟩).current) ∧
    (∀ cFuel vFuel, (binary_search ⟨true, none, 3, 0, 4, false⟩
        (fun _ => true) cFuel vFuel).clipWarning = false) :=
  c10_fc_clipped_never ⟨true, none, 3, 0, 4, false⟩ (fun _ => true)
    (initState ⟨true, none, 3, 0, 4, false⟩) (Reachable.init (by rfl))

theorem c7_fs_floor_stop_witness :
    searchLoop ⟨false, none, 3003, 0, 1000, true⟩ (fun _ => false) (3 + 1)
        (initState ⟨false, none, 3003, 0, 1000, true⟩) =
      ([], .finished (initState ⟨false, none, 3003, 0, 1000, true⟩).high
        (initState ⟨false, none, 3003, 0, 1000, true⟩)) ∧
    (verLoop ⟨false, none, 3003, 0, 1000, true⟩ (fun _ => false) 2
        (verInit (-1) 5 false)).2.final = -1 ∧
    place_and_route_search_success (-1) = false :=
  c7_fs_floor_stop ⟨false, none, 3003, 0, 1000, true⟩ (fun _ => false)
    (initState ⟨false, none, 3003, 0, 1000, true⟩) 3 2 5 false
    (fun W h => Option.noConfusion h) (fun _ => by decide) (by decide)
